import Mathlib

/-!
Verification development for the mcp-beancount Ledger Mutation and Snapshot
Engine (`src/mcp_beancount/ledger.py`, `config.py`, `schemas.py`).

Ledger texts are shallowly embedded as lists of characters (`Text`).  The
embedded texts are assumed to use LF (`\n`) line endings, the convention of
Beancount ledger files; Python `str.splitlines` recognises further break
characters (`\r`, `\v`, `\f`, ...) that never occur in these files, so on
this domain splitting on `\n` is exactly the Python behaviour.  Decimal
amounts (`decimal.Decimal`, produced by `parse_decimal`) are embedded as
exact rationals: `Decimal` arithmetic on parsed ledger amounts is exact,
and the balance check in `_build_transaction` only adds and compares them.
Dates (`datetime.date`) are embedded as naturals ordered chronologically.
-/

set_option maxRecDepth 4000

namespace McpBeancount

/-- Ledger file contents, byte for byte (one `Char` per code point). -/
abbrev Text := List Char

/-- Whitespace characters stripped by Python `str.rstrip()` / tested by
`str.strip()`, restricted to the ASCII range that can occur in a ledger. -/
def isPyWs (c : Char) : Bool :=
  c = ' ' || c = '\t' || c = '\n' || c = '\x0d' || c = '\x0b' || c = '\x0c'

/-- Python `s.rstrip()`: drop all trailing whitespace. -/
def rstripAll (s : Text) : Text :=
  (s.reverse.dropWhile isPyWs).reverse

/-- Python `s.rstrip("\n")`: drop trailing newline characters only. -/
def rstripNl (s : Text) : Text :=
  (s.reverse.dropWhile (fun c => c = '\n')).reverse

/-- Number of trailing newline characters, Python
`len(s) - len(s.rstrip("\n"))`. -/
def trailingNewlines (s : Text) : Nat :=
  (s.reverse.takeWhile (fun c => c = '\n')).length

/-- Python `s.splitlines()` for LF-terminated text: the list of lines with
terminators removed; a final unterminated segment is kept, a final
terminator does not produce an extra empty line. -/
def splitlines : Text → List Text
  | [] => []
  | c :: cs =>
    if c = '\n' then
      [] :: splitlines cs
    else
      match splitlines cs with
      | [] => [[c]]
      | l :: ls => (c :: l) :: ls

/-- Python `"\n".join(lines)`. -/
def joinNl : List Text → Text
  | [] => []
  | [l] => l
  | l :: ls => l ++ '\n' :: joinNl ls

/-- Python `line.strip() == ""`: the line consists of whitespace only. -/
def isBlankLine (l : Text) : Bool :=
  l.all isPyWs

/-- Lines with trailing empty lines removed (used to describe the effect of
`"\n".join(...).rstrip("\n")`). -/
def dropTrailingEmpties (ls : List Text) : List Text :=
  (ls.reverse.dropWhile (fun l => l.isEmpty)).reverse

/-! Basic lemmas about the embedded Python string operations. -/

theorem getLast?_cons_of_ne_nil {α : Type} (c : α) {cs : List α} (h : cs ≠ []) :
    (c :: cs).getLast? = cs.getLast? := by
  cases cs with
  | nil => exact absurd rfl h
  | cons m ms => rw [List.getLast?_cons_cons]

theorem splitlines_nil : splitlines [] = [] := rfl

theorem splitlines_cons_nl (s : Text) : splitlines ('\n' :: s) = [] :: splitlines s := by
  simp [splitlines]

theorem splitlines_cons_of_ne (c : Char) (s : Text) (h : ¬ c = '\n') :
    splitlines (c :: s) =
      match splitlines s with
      | [] => [[c]]
      | l :: ls => (c :: l) :: ls := by
  simp only [splitlines, if_neg h]

theorem splitlines_ne_nil {s : Text} (h : s ≠ []) : splitlines s ≠ [] := by
  match s with
  | [] => exact absurd rfl h
  | c :: cs =>
    by_cases hc : c = '\n'
    · subst hc
      simp [splitlines_cons_nl]
    · rw [splitlines_cons_of_ne c cs hc]
      cases splitlines cs <;> simp

theorem splitlines_append (X Y : Text) :
    splitlines (X ++ '\n' :: Y) = splitlines (X ++ ['\n']) ++ splitlines Y := by
  induction X with
  | nil => simp [splitlines_cons_nl, splitlines]
  | cons c cs ih =>
    by_cases hc : c = '\n'
    · subst hc
      simp only [List.cons_append, splitlines_cons_nl, ih]
    · have hne : splitlines (cs ++ ['\n']) ≠ [] := splitlines_ne_nil (by simp)
      simp only [List.cons_append, splitlines_cons_of_ne c _ hc, ih]
      cases h : splitlines (cs ++ ['\n']) with
      | nil => exact absurd h hne
      | cons l ls => simp

theorem not_nl_mem_splitlines {s l : Text} (hl : l ∈ splitlines s) : '\n' ∉ l := by
  induction s generalizing l with
  | nil => simp [splitlines_nil] at hl
  | cons c cs ih =>
    by_cases hc : c = '\n'
    · subst hc
      rw [splitlines_cons_nl] at hl
      rcases List.mem_cons.mp hl with h | h
      · subst h; simp
      · exact ih h
    · rw [splitlines_cons_of_ne c cs hc] at hl
      cases h : splitlines cs with
      | nil =>
        rw [h] at hl
        simp only [List.mem_singleton] at hl
        subst hl
        simp [hc, Ne.symm hc]
      | cons t ts =>
        rw [h] at hl
        rcases List.mem_cons.mp hl with h2 | h2
        · subst h2
          intro hmem
          rcases List.mem_cons.mp hmem with h3 | h3
          · exact hc h3.symm
          · exact ih (h ▸ List.mem_cons_self t ts) h3
        · exact ih (h ▸ List.mem_cons_of_mem t h2)

theorem splitlines_of_no_nl {s : Text} (hnl : '\n' ∉ s) (hne : s ≠ []) :
    splitlines s = [s] := by
  induction s with
  | nil => exact absurd rfl hne
  | cons c cs ih =>
    have hc : ¬ c = '\n' := fun h => hnl (h ▸ List.mem_cons_self c cs)
    rw [splitlines_cons_of_ne c cs hc]
    by_cases hcs : cs = []
    · subst hcs; rfl
    · rw [ih (fun h => hnl (List.mem_cons_of_mem c h)) hcs]

theorem splitlines_append_nl_of_last_ne {s : Text} (hne : s ≠ [])
    (hlast : s.getLast? ≠ some '\n') :
    splitlines (s ++ ['\n']) = splitlines s := by
  induction s with
  | nil => exact absurd rfl hne
  | cons c cs ih =>
    by_cases hcs : cs = []
    · subst hcs
      have hc : ¬ c = '\n' := by
        intro h; exact hlast (by simp [h])
      rw [List.singleton_append, splitlines_cons_of_ne c ['\n'] hc,
        splitlines_cons_of_ne c [] hc]
      simp [splitlines_cons_nl, splitlines_nil]
    · have hlast2 : cs.getLast? ≠ some '\n' := by
        rwa [getLast?_cons_of_ne_nil c hcs] at hlast
      have ih2 := ih hcs hlast2
      by_cases hc : c = '\n'
      · subst hc
        rw [List.cons_append, splitlines_cons_nl, splitlines_cons_nl, ih2]
      · rw [List.cons_append, splitlines_cons_of_ne c _ hc,
          splitlines_cons_of_ne c _ hc, ih2]

theorem joinNl_cons (l : Text) (ls : List Text) (h : ls ≠ []) :
    joinNl (l :: ls) = l ++ '\n' :: joinNl ls := by
  cases ls with
  | nil => exact absurd rfl h
  | cons m ms => rfl

theorem joinNl_append_single (A : List Text) (x : Text) (h : A ≠ []) :
    joinNl (A ++ [x]) = joinNl A ++ '\n' :: x := by
  induction A with
  | nil => exact absurd rfl h
  | cons l ls ih =>
    by_cases hls : ls = []
    · subst hls; rfl
    · rw [List.cons_append, joinNl_cons _ _ (by simp [hls]), ih hls,
        joinNl_cons _ _ hls]
      simp

theorem joinNl_splitlines {s : Text} (h : s.getLast? = some '\n') :
    joinNl (splitlines s) ++ ['\n'] = s := by
  induction s with
  | nil => simp at h
  | cons c cs ih =>
    by_cases hcs : cs = []
    · subst hcs
      have hc : c = '\n' := by simpa using h
      subst hc
      rfl
    · have h2 : cs.getLast? = some '\n' := by
        rwa [getLast?_cons_of_ne_nil c hcs] at h
      have ih2 := ih h2
      by_cases hc : c = '\n'
      · subst hc
        rw [splitlines_cons_nl,
          joinNl_cons _ _ (splitlines_ne_nil hcs)]
        simpa using ih2
      · rw [splitlines_cons_of_ne c cs hc]
        cases hsp : splitlines cs with
        | nil => exact absurd hsp (splitlines_ne_nil hcs)
        | cons l ls =>
          rw [hsp] at ih2
          cases ls with
          | nil =>
            simp only [joinNl] at ih2 ⊢
            simp [ih2]
          | cons m ms =>
            rw [joinNl_cons _ _ (by simp)] at ih2 ⊢
            simp only [List.cons_append, List.append_assoc] at ih2 ⊢
            simp [ih2]

theorem splitlines_getLast_ne_empty {s : Text} (hne : s ≠ [])
    (hlast : s.getLast? ≠ some '\n') :
    ∃ L, (splitlines s).getLast? = some L ∧ L ≠ [] := by
  induction s with
  | nil => exact absurd rfl hne
  | cons c cs ih =>
    by_cases hcs : cs = []
    · subst hcs
      have hc : ¬ c = '\n' := by
        intro h; exact hlast (by simp [h])
      rw [splitlines_cons_of_ne c [] hc]
      exact ⟨[c], by simp [splitlines_nil], by simp⟩
    · have hlast2 : cs.getLast? ≠ some '\n' := by
        rwa [getLast?_cons_of_ne_nil c hcs] at hlast
      obtain ⟨L, hL, hLne⟩ := ih hcs hlast2
      by_cases hc : c = '\n'
      · subst hc
        rw [splitlines_cons_nl]
        refine ⟨L, ?_, hLne⟩
        rwa [getLast?_cons_of_ne_nil _ (splitlines_ne_nil hcs)]
      · rw [splitlines_cons_of_ne c cs hc]
        cases hsp : splitlines cs with
        | nil => exact absurd hsp (splitlines_ne_nil hcs)
        | cons l ls =>
          rw [hsp] at hL
          cases ls with
          | nil =>
            exact ⟨c :: l, by simp, by simp⟩
          | cons m ms =>
            refine ⟨L, ?_, hLne⟩
            rw [List.getLast?_cons_cons] at hL ⊢
            exact hL

theorem head?_dropWhile_false {α : Type} (p : α → Bool) (l : List α) {a : α}
    (h : (l.dropWhile p).head? = some a) : p a = false := by
  induction l with
  | nil => simp at h
  | cons c cs ih =>
    rw [List.dropWhile_cons] at h
    by_cases hc : p c = true
    · rw [if_pos hc] at h
      exact ih h
    · rw [if_neg hc] at h
      simp only [List.head?_cons, Option.some_inj] at h
      subst h
      exact Bool.eq_false_iff.mpr hc

theorem getLast?_mem' {α : Type} {l : List α} {a : α} (h : l.getLast? = some a) :
    a ∈ l := by
  induction l with
  | nil => simp at h
  | cons c cs ih =>
    cases hcs : cs with
    | nil =>
      subst hcs
      simp only [List.getLast?_singleton, Option.some_inj] at h
      simp [h]
    | cons m ms =>
      subst hcs
      rw [List.getLast?_cons_cons] at h
      exact List.mem_cons_of_mem c (ih h)

theorem rstripNl_append_nl (s : Text) : rstripNl (s ++ ['\n']) = rstripNl s := by
  simp [rstripNl, List.dropWhile_cons]

theorem rstripNl_eq_self {s : Text} (h : s.getLast? ≠ some '\n') :
    rstripNl s = s := by
  cases hs : s.reverse with
  | nil =>
    have : s = [] := by simpa using congrArg List.reverse hs
    simp [this, rstripNl]
  | cons c cs =>
    have hc : c ≠ '\n' := by
      intro hccontra
      apply h
      rw [← List.head?_reverse, hs, hccontra]
      rfl
    have : s = (c :: cs).reverse := by
      have := congrArg List.reverse hs
      simpa using this
    rw [this]
    simp [rstripNl, List.dropWhile_cons, hc]

theorem rstripNl_last_ne {s : Text} : (rstripNl s).getLast? ≠ some '\n' := by
  intro h
  have hh : (s.reverse.dropWhile (fun c => c = '\n')).head? = some '\n' := by
    rw [← List.getLast?_reverse]
    simpa [rstripNl] using h
  have := head?_dropWhile_false (fun c => c = '\n') s.reverse hh
  simp at this

theorem rstripAll_last_not_ws {s : Text} {c : Char}
    (h : (rstripAll s).getLast? = some c) : isPyWs c = false := by
  have hh : (s.reverse.dropWhile isPyWs).head? = some c := by
    rw [← List.getLast?_reverse]
    simpa [rstripAll] using h
  exact head?_dropWhile_false isPyWs s.reverse hh

theorem rstripAll_last_ne_nl {s : Text} : (rstripAll s).getLast? ≠ some '\n' := by
  intro h
  have := rstripAll_last_not_ws h
  simp [isPyWs] at this

theorem trailingNewlines_append_single (s : Text) (c : Char) :
    trailingNewlines (s ++ [c]) =
      if c = '\n' then trailingNewlines s + 1 else 0 := by
  by_cases hc : c = '\n'
  · simp [trailingNewlines, hc, List.takeWhile_cons]
  · simp [trailingNewlines, List.takeWhile_cons, hc]

theorem trailingNewlines_eq_zero {s : Text} (h : s.getLast? ≠ some '\n') :
    trailingNewlines s = 0 := by
  cases hs : s.reverse with
  | nil => simp [trailingNewlines, hs]
  | cons c cs =>
    have hc : ¬ c = '\n' := by
      intro hccontra
      apply h
      rw [← List.head?_reverse, hs, hccontra]
      rfl
    simp [trailingNewlines, hs, List.takeWhile_cons, hc]

theorem getLast_of_trailingNewlines_pos {s : Text} (h : trailingNewlines s ≠ 0) :
    s.getLast? = some '\n' := by
  by_contra hlast
  exact h (trailingNewlines_eq_zero hlast)

theorem getLast?_replicate_pos (k : Nat) (c : Char) (h : 1 ≤ k) :
    (List.replicate k c).getLast? = some c := by
  induction k with
  | zero => omega
  | succ n ih =>
    cases n with
    | zero => rfl
    | succ m =>
      rw [List.replicate_succ, getLast?_cons_of_ne_nil c (by simp)]
      exact ih (by omega)

theorem text_eq_of_splitlines_eq {a b : Text} (ha : a.getLast? = some '\n')
    (hb : b.getLast? = some '\n') (h : splitlines a = splitlines b) : a = b := by
  rw [← joinNl_splitlines ha, ← joinNl_splitlines hb, h]

theorem joinNl_splitlines_of_last_ne {s : Text} (hne : s ≠ [])
    (hlast : s.getLast? ≠ some '\n') : joinNl (splitlines s) = s := by
  have h1 : (s ++ ['\n']).getLast? = some '\n' := by
    rw [List.getLast?_append_of_ne_nil s (by simp)]
    rfl
  have h2 := joinNl_splitlines h1
  rw [splitlines_append_nl_of_last_ne hne hlast] at h2
  exact List.append_inj_left' h2 rfl

theorem splitlines_append_nl_of_no_nl {L : Text} (h : '\n' ∉ L) :
    splitlines (L ++ ['\n']) = [L] := by
  by_cases hL : L = []
  · subst hL
    simp [splitlines_cons_nl, splitlines_nil]
  · rw [splitlines_append_nl_of_last_ne hL, splitlines_of_no_nl h hL]
    intro hlast
    exact h (getLast?_mem' hlast)

theorem splitlines_joinNl {M : List Text} (hne : M ≠ [])
    (hnl : ∀ l ∈ M, '\n' ∉ l) (hlast : M.getLast? ≠ some []) :
    splitlines (joinNl M) = M := by
  induction M with
  | nil => exact absurd rfl hne
  | cons L M2 ih =>
    cases hM2 : M2 with
    | nil =>
      subst hM2
      have hLne : L ≠ [] := by
        intro h
        exact hlast (by simp [h])
      simp only [joinNl]
      rw [splitlines_of_no_nl (hnl L (by simp)) hLne]
    | cons m ms =>
      subst hM2
      rw [joinNl_cons L _ (by simp)]
      rw [splitlines_append L (joinNl (m :: ms)),
        splitlines_append_nl_of_no_nl (hnl L (by simp))]
      rw [ih (by simp) (fun l hl => hnl l (List.mem_cons_of_mem L hl))
        (by rwa [getLast?_cons_of_ne_nil L (by simp)] at hlast)]
      rfl

theorem dropTrailingEmpties_append_empty (M : List Text) :
    dropTrailingEmpties (M ++ [[]]) = dropTrailingEmpties M := by
  simp [dropTrailingEmpties, List.dropWhile_cons]

theorem dropTrailingEmpties_eq_self {M : List Text} {x : Text}
    (h : M.getLast? = some x) (hx : x ≠ []) : dropTrailingEmpties M = M := by
  cases hM : M.reverse with
  | nil =>
    have : M = [] := by simpa using congrArg List.reverse hM
    simp [this, dropTrailingEmpties]
  | cons l ls =>
    have hl : l = x := by
      have := List.head?_reverse M
      rw [hM] at this
      simp only [List.head?_cons] at this
      rw [h] at this
      exact Option.some_inj.mp this
    have hM2 : M = (l :: ls).reverse := by
      have := congrArg List.reverse hM
      simpa using this
    rw [hM2]
    simp [dropTrailingEmpties, List.dropWhile_cons, List.isEmpty_iff, hl, hx]

theorem dropTrailingEmpties_length_le (M : List Text) :
    (dropTrailingEmpties M).length ≤ M.length := by
  calc (dropTrailingEmpties M).length
      = (M.reverse.dropWhile (fun l => l.isEmpty)).length := by
        simp [dropTrailingEmpties]
    _ ≤ M.reverse.length := (List.dropWhile_sublist _).length_le
    _ = M.length := by simp

theorem dropTrailingEmpties_last_ne {M : List Text} :
    (dropTrailingEmpties M).getLast? ≠ some [] := by
  intro h
  have hh : (M.reverse.dropWhile (fun l => l.isEmpty)).head? = some [] := by
    rw [← List.getLast?_reverse]
    simpa [dropTrailingEmpties] using h
  have := head?_dropWhile_false (fun l => l.isEmpty) M.reverse hh
  simp at this

theorem mem_dropTrailingEmpties {M : List Text} {l : Text}
    (h : l ∈ dropTrailingEmpties M) : l ∈ M := by
  have h2 : l ∈ M.reverse.dropWhile (fun l => l.isEmpty) := by
    simpa [dropTrailingEmpties] using h
  have := (List.dropWhile_sublist (fun l => l.isEmpty) (l := M.reverse)).mem h2
  simpa using this

theorem rstripNl_joinNl {M : List Text} (hnl : ∀ l ∈ M, '\n' ∉ l) :
    rstripNl (joinNl M) = joinNl (dropTrailingEmpties M) := by
  induction M using List.reverseRecOn with
  | nil => simp [joinNl, dropTrailingEmpties, rstripNl]
  | append_singleton A x ih =>
    by_cases hx : x = []
    · subst hx
      rw [dropTrailingEmpties_append_empty]
      by_cases hA : A = []
      · subst hA
        simp [joinNl, dropTrailingEmpties, rstripNl]
      · rw [joinNl_append_single A [] hA]
        have : joinNl A ++ '\n' :: [] = joinNl A ++ ['\n'] := rfl
        rw [this, rstripNl_append_nl]
        exact ih (fun l hl => hnl l (List.mem_append_left _ hl))
    · rw [dropTrailingEmpties_eq_self (by simp) hx]
      apply rstripNl_eq_self
      by_cases hA : A = []
      · subst hA
        simp only [List.nil_append, joinNl]
        intro hlast
        exact hnl x (by simp) (getLast?_mem' hlast)
      · rw [joinNl_append_single A x hA,
          List.getLast?_append_of_ne_nil _ (by simp [hx])]
        intro hlast
        rw [getLast?_cons_of_ne_nil '\n' hx] at hlast
        exact hnl x (by simp) (getLast?_mem' hlast)

-- Sanity checks of the Python string semantics.
example : splitlines "a\nb\n".data = ["a".data, "b".data] := by decide
example : splitlines "a\n\n".data = ["a".data, []] := by decide
example : splitlines "\n".data = [[]] := by decide
example : splitlines [] = [] := by decide
example : rstripAll "a \n\n".data = "a".data := by decide
example : trailingNewlines "a\n\n".data = 2 := by decide
example : joinNl ["a".data, [], "b".data] = "a\n\nb".data := by decide

/-! Error taxonomy of exceptions.py.  In the source
`LedgerValidationError` is a subclass of `LedgerLoadError`; here they are
distinct constructors, and the only claim distinguishing error classes
(C10) concerns an error raised literally as `LedgerLoadError`. -/

inductive MCPError where
  | ledgerLoadError
  | ledgerValidationError
  | transactionValidationError
  | transactionNotFoundError
  deriving DecidableEq, Repr

/-- Embedding of `_append_entry(original, entry_text)` (ledger.py): strip all
trailing whitespace from the file, separate with one blank line, end with a
final newline; a file that is empty after stripping receives just the entry
plus a newline. -/
def append_entry (original : Text) (entry_text : Text) : Text :=
  let stripped := rstripAll original
  if stripped = [] then entry_text ++ ['\n']
  else stripped ++ '\n' :: '\n' :: (entry_text ++ ['\n'])

/-- Embedding of `_remove_entry(original, transaction)` (ledger.py), taking
the `lineno` recorded in the transaction metadata.  The two `while` loops of
the source, which advance from the target line first over the non-blank
block and then over the following blank separator lines, are expressed with
`takeWhile` over the corresponding suffix of the line list. -/
def remove_entry_core (original : Text) (lineno : Option Int) :
    Except MCPError Text :=
  let trailingRaw := trailingNewlines original
  let trailing := if trailingRaw = 0 then 1 else trailingRaw
  let lines := splitlines original
  match lineno with
  | none => .error .transactionValidationError
  | some start =>
    let index : Int := start - 1
    if index < 0 ∨ (lines.length : Int) ≤ index then
      .error .ledgerLoadError
    else
      let idx := index.toNat
      let suffix := lines.drop idx
      let block := suffix.takeWhile (fun l => !(isBlankLine l))
      let blanks := (suffix.drop block.length).takeWhile (fun l => isBlankLine l)
      let newLines := lines.take idx ++ lines.drop (idx + (block.length + blanks.length))
      let stripped := rstripNl (joinNl newLines)
      .ok (stripped ++ List.replicate trailing '\n')

/-- Header lines produced by `difflib.unified_diff` under the arguments used
by `_diff` (ledger.py). -/
def diffHeader (name : String) : Text :=
  '-' :: '-' :: '-' :: ' ' ::
    (name.data ++ (" (before)\n+++ " ++ name ++ " (after)").data)

/-- Modelled from the spec and the documented contract of the external
`difflib.unified_diff` collaborator used by `_diff` (ledger.py): comparing
equal line sequences yields no output at all, so the joined diff is empty;
unequal line sequences always yield at least the two file-header lines.
Hunk bodies are not modelled because no claim inspects them. -/
def udiff (before after : Text) (name : String) : Text :=
  if splitlines before = splitlines after then []
  else diffHeader name

theorem udiff_eq_nil_iff (before after : Text) (name : String) :
    udiff before after name = [] ↔ splitlines before = splitlines after := by
  by_cases h : splitlines before = splitlines after
  · simp [udiff, h]
  · simp [udiff, h, diffHeader]

/-! Data model: postings, transactions and directives
(`beancount.core.data` as used by ledger.py, restricted to the fields the
engine reads).  Metadata values other than `txn_id` (a string) and `lineno`
(an integer source line) are kept as strings. -/

structure Posting where
  account : String
  number : ℚ
  currency : String
  deriving DecidableEq, Repr

structure Transaction where
  date : Nat
  flag : Option String := none
  payee : Option String := none
  narration : Option String := none
  tags : List String := []
  meta : List (String × String) := []
  txn_id : Option String := none
  lineno : Option Int := none
  postings : List Posting := []
  deriving DecidableEq, Repr

inductive Directive where
  | txn (t : Transaction)
  | price (date : Nat) (base : String) (quote : String) (rate : ℚ)
  | other (date : Nat)
  deriving DecidableEq, Repr

/-- Every beancount directive carries a date. -/
def Directive.date : Directive → Nat
  | .txn t => t.date
  | .price d _ _ _ => d
  | .other d => d

/-! Canonical rendering, modelled from the external `format_entry`
collaborator (the beancount printer): one header line with date, flag and
quoted payee/narration, one line per metadata key with the `txn_id` first,
one line per posting, each line terminated by a single newline.  The exact
cell layout inside a line is irrelevant to every claim; what the claims use
is the line structure and the single final newline, which are faithful to
the collaborator. -/

def renderRat (q : ℚ) : String :=
  toString q.num ++ "/" ++ toString q.den

def renderPostingLine (p : Posting) : Text :=
  ("  " ++ p.account ++ "  " ++ renderRat p.number ++ " " ++ p.currency).data

def renderMetaLine (kv : String × String) : Text :=
  ("  " ++ kv.1 ++ ": \"" ++ kv.2 ++ "\"").data

def renderHeaderLine (t : Transaction) : Text :=
  (toString t.date ++ " " ++ t.flag.getD "*" ++ " \"" ++ t.payee.getD "" ++
    "\" \"" ++ t.narration.getD "" ++ "\"").data

def entryLines (t : Transaction) : List Text :=
  renderHeaderLine t ::
    ((match t.txn_id with
      | none => []
      | some i => [("  txn_id: \"" ++ i ++ "\"").data]) ++
      t.meta.map renderMetaLine ++ t.postings.map renderPostingLine)

/-- Rendered lines, each terminated with a newline. -/
def concatNl (ls : List Text) : Text :=
  ls.foldr (fun l acc => l ++ '\n' :: acc) []

def format_entry (t : Transaction) : Text :=
  concatNl (entryLines t)

/-- Rendered entry lines are well formed: newline-free and non-blank.  This
is a property of the external printer (every rendered cell is
newline-free, every line carries at least one printable character); it is a
hypothesis of the theorems that need it, discharged on concrete entries. -/
def goodLines (ls : List Text) : Bool :=
  ls.all (fun l => l.all (fun c => !(c = '\n')) && !(isBlankLine l))

theorem concatNl_eq_joinNl {ls : List Text} (h : ls ≠ []) :
    concatNl ls = joinNl ls ++ ['\n'] := by
  induction ls with
  | nil => exact absurd rfl h
  | cons l rest ih =>
    by_cases hr : rest = []
    · subst hr; rfl
    · show l ++ '\n' :: concatNl rest = _
      rw [ih hr, joinNl_cons l rest hr]
      simp

theorem splitlines_concatNl {ls : List Text} (hnl : ∀ l ∈ ls, '\n' ∉ l) :
    splitlines (concatNl ls ++ ['\n']) = ls ++ [[]] := by
  induction ls with
  | nil =>
    show splitlines ['\n'] = [[]]
    simp [splitlines_cons_nl, splitlines_nil]
  | cons L rest ih =>
    show splitlines ((L ++ '\n' :: concatNl rest) ++ ['\n']) = _
    rw [List.append_assoc, List.cons_append, splitlines_append L _,
      splitlines_append_nl_of_no_nl (hnl L (by simp)),
      ih (fun l hl => hnl l (List.mem_cons_of_mem L hl))]
    rfl


/-! Configuration (config.py `AppConfig`), restricted to the fields the
ledger engine consumes; field defaults reproduce the pydantic defaults. -/

structure AppConfig where
  ledgerName : String
  backup_retention : Option Nat := some 10
  dry_run_default : Bool := false
  deriving DecidableEq, Repr

/-! Request and result schemas (schemas.py), restricted to the fields the
engine reads.  `PostingInput` cost and price fields are omitted: no claim
reads them and they do not influence the balance check, which sums only the
units.  Textual decimal amounts are embedded as the exact rationals that
`parse_decimal` produces on well-formed input. -/

structure PostingInput where
  account : String
  amount : ℚ
  currency : String
  deriving DecidableEq, Repr

structure InsertTransactionRequest where
  date : Nat
  flag : Option String := none
  payee : Option String := none
  narration : Option String := none
  postings : List PostingInput
  tags : List String := []
  meta : List (String × String) := []
  txn_id : Option String := none
  dry_run : Option Bool := none
  deriving DecidableEq, Repr

structure InsertTransactionResult where
  txn_id : String
  dry_run : Bool
  diff : Text
  deriving DecidableEq, Repr

structure RemoveTransactionRequest where
  txn_id : String
  dry_run : Option Bool := none
  deriving DecidableEq, Repr

structure RemoveTransactionResult where
  txn_id : String
  dry_run : Bool
  diff : Text
  deriving DecidableEq, Repr

/-- Inventory, as used by the balance check and the aggregation engine: an
association list from currency to accumulated amount.  As in
`beancount.core.inventory.Inventory`, a position whose accumulated amount
reaches zero is removed, so an inventory of balanced postings is empty. -/
abbrev Inventory := List (String × ℚ)

def addAmount (inv : Inventory) (currency : String) (number : ℚ) : Inventory :=
  let old := ((inv.find? (fun p => p.1 == currency)).map Prod.snd).getD 0
  let rest := inv.filter (fun p => !(p.1 == currency))
  if old + number = 0 then rest else (currency, old + number) :: rest

def invValue (inv : Inventory) (currency : String) : ℚ :=
  ((inv.find? (fun p => p.1 == currency)).map Prod.snd).getD 0

/-- Net amount of a request in one currency: the sum of the posting amounts
carrying that currency. -/
def currencySum (ps : List PostingInput) (currency : String) : ℚ :=
  (ps.map (fun p => if p.currency == currency then p.amount else 0)).sum

/-- Embedding of `_build_transaction(request, txn_id)` (ledger.py): build the
postings, sum their units into an inventory, reject with
TransactionValidationError when the inventory is not empty, then construct
the transaction carrying the `txn_id` and the caller metadata with the
internal `filename`/`lineno` keys skipped.  As in the source, the flag
falls back to the OK flag when absent or falsy. -/
def build_transaction (request : InsertTransactionRequest) (txnId : String) :
    Except MCPError Transaction :=
  let postings := request.postings.map
    (fun p => Posting.mk p.account p.amount p.currency)
  let inv := postings.foldl (fun inv p => addAmount inv p.currency p.number) []
  if ¬ inv = [] then .error .transactionValidationError
  else
    .ok { date := request.date
          flag := some (match request.flag with
            | none => "*"
            | some f => if f = "" then "*" else f)
          payee := request.payee
          narration := request.narration
          tags := request.tags
          meta := request.meta.filter
            (fun kv => !(kv.1 == "filename" || kv.1 == "lineno"))
          txn_id := some txnId
          lineno := none
          postings := postings }

/-- Snapshot of the parsed ledger (`LedgerSnapshot` in ledger.py).  Parser
errors, the options map and the price map are not recorded here: the price
map is recomputed from the directives where the balance claims need it. -/
structure LedgerSnapshot where
  entries : List Directive
  text : Text
  mtime : Nat
  size : Nat
  deriving DecidableEq, Repr

/-- State of a `LedgerManager` together with the file system it owns: the
ledger file bytes, a modification counter standing for the stat mtime, the
backup file names present in the backup directory, the cached snapshot, and
a count of parser invocations (it observes re-parses for the cache claims). -/
structure ManagerState where
  fileText : Text
  mtime : Nat
  backups : List String
  snapshot : Option LedgerSnapshot
  parseCount : Nat
  deriving DecidableEq, Repr

/-- Parser collaborator (`beancount.loader.load_file`), abstracted to a
function from ledger text to directives. -/
abbrev ParseFn := Text → List Directive

/-- Validator collaborator used by `_validate_text`: the list of error
messages the parser reports on a candidate text. -/
abbrev ErrorsFn := Text → List String

def reload_snapshot (parse : ParseFn) (st : ManagerState) :
    LedgerSnapshot × ManagerState :=
  let text := st.fileText
  let snap : LedgerSnapshot :=
    { entries := parse text, text := text, mtime := st.mtime,
      size := text.length }
  (snap, { st with snapshot := some snap, parseCount := st.parseCount + 1 })

/-- Embedding of `LedgerManager.load` (ledger.py): stat the file; when
`force` is unset and the cached snapshot matches the stat mtime and size,
return it unchanged without re-reading or re-parsing; otherwise re-read the
text, re-parse, and install a fresh snapshot. -/
def load (parse : ParseFn) (st : ManagerState) (force : Bool) :
    LedgerSnapshot × ManagerState :=
  match st.snapshot with
  | some snap =>
    if force = false ∧ snap.mtime = st.mtime ∧ snap.size = st.fileText.length
    then (snap, st)
    else reload_snapshot parse st
  | none => reload_snapshot parse st

/-- Backup file name `f"{self.ledger_path.name}.{timestamp}.bak"`. -/
def backupName (cfg : AppConfig) (timestamp : String) : String :=
  cfg.ledgerName ++ "." ++ timestamp ++ ".bak"

def insertDesc (x : String) : List String → List String
  | [] => [x]
  | y :: ys => if y < x then x :: y :: ys else y :: insertDesc x ys

/-- Python `sorted(..., reverse=True)` on file names. -/
def sortDesc : List String → List String
  | [] => []
  | x :: xs => insertDesc x (sortDesc xs)

/-- Embedding of `_prune_backups` (ledger.py): with a finite positive
retention, keep only the `retention` lexicographically largest backup names
(the newest, since the timestamps are fixed-width) and delete the rest. -/
def prune_backups (cfg : AppConfig) (backups : List String) : List String :=
  match cfg.backup_retention with
  | none => backups
  | some retention =>
    if retention = 0 then backups
    else (sortDesc backups).take retention

/-- Embedding of `_write_ledger` (ledger.py): under the file lock, copy the
current ledger to a timestamped backup (overwriting a backup of the same
name, as `shutil.copy2` does), prune the backups, then atomically replace
the ledger with the new text, which bumps the stat mtime.  Lock acquisition
always succeeds here: lock timeouts are a liveness concern outside every
claim. -/
def write_ledger (cfg : AppConfig) (timestamp : String) (st : ManagerState)
    (text : Text) : ManagerState :=
  let name := backupName cfg timestamp
  let withNew := name :: st.backups.filter (fun n => !(n == name))
  { st with backups := prune_backups cfg withNew,
            fileText := text,
            mtime := st.mtime + 1 }

def txnIdMatches (txnId : String) : Directive → Option Transaction
  | .txn t => if t.txn_id == some txnId then some t else none
  | _ => none

/-- Embedding of `_get_transaction` (ledger.py): no match raises
TransactionNotFoundError, a duplicate id raises
TransactionValidationError. -/
def get_transaction (entries : List Directive) (txnId : String) :
    Except MCPError Transaction :=
  match entries.filterMap (txnIdMatches txnId) with
  | [] => .error .transactionNotFoundError
  | [t] => .ok t
  | _ :: _ :: _ => .error .transactionValidationError

/-- Embedding of `LedgerManager.insert_transaction` (ledger.py).  The fresh
uuid4 for a request without `txn_id` and the backup timestamp are inputs;
`_transaction_exists` catches only TransactionNotFoundError, so one or more
existing transactions with the requested id both surface as
TransactionValidationError, as in the source. -/
def insert_transaction (parse : ParseFn) (errorsOf : ErrorsFn)
    (cfg : AppConfig) (freshId : String) (timestamp : String)
    (st : ManagerState) (request : InsertTransactionRequest) :
    Except MCPError InsertTransactionResult × ManagerState :=
  let loaded := load parse st false
  let snap := loaded.1
  let st1 := loaded.2
  let dryRun := request.dry_run.getD cfg.dry_run_default
  let txnId := request.txn_id.getD freshId
  if ¬ (snap.entries.filterMap (txnIdMatches txnId)) = [] then
    (.error .transactionValidationError, st1)
  else
    match build_transaction request txnId with
    | .error e => (.error e, st1)
    | .ok txn =>
      let formatted := format_entry txn
      let newText := append_entry snap.text formatted
      if ¬ errorsOf newText = [] then
        (.error .ledgerValidationError, st1)
      else
        let diff := udiff snap.text newText cfg.ledgerName
        if dryRun then
          (.ok ⟨txnId, true, diff⟩, st1)
        else
          let st2 := write_ledger cfg timestamp st1 newText
          let reloaded := load parse st2 true
          (.ok ⟨txnId, false, diff⟩, reloaded.2)

/-- Embedding of `LedgerManager.remove_transaction` (ledger.py). -/
def remove_transaction (parse : ParseFn) (errorsOf : ErrorsFn)
    (cfg : AppConfig) (timestamp : String) (st : ManagerState)
    (request : RemoveTransactionRequest) :
    Except MCPError RemoveTransactionResult × ManagerState :=
  let loaded := load parse st false
  let snap := loaded.1
  let st1 := loaded.2
  let dryRun := request.dry_run.getD cfg.dry_run_default
  match get_transaction snap.entries request.txn_id with
  | .error e => (.error e, st1)
  | .ok txn =>
    match remove_entry_core snap.text txn.lineno with
    | .error e => (.error e, st1)
    | .ok newText =>
      if ¬ errorsOf newText = [] then
        (.error .ledgerValidationError, st1)
      else
        let diff := udiff snap.text newText cfg.ledgerName
        if dryRun then
          (.ok ⟨request.txn_id, true, diff⟩, st1)
        else
          let st2 := write_ledger cfg timestamp st1 newText
          let reloaded := load parse st2 true
          (.ok ⟨request.txn_id, false, diff⟩, reloaded.2)

/-! Aggregation engine: `_filter_entries`, the price collaborators,
`_inventory_to_amounts`, `balance` and `list_transactions`. -/

structure BalanceRequest where
  accounts : Option (List String) := none
  include_children : Bool := true
  start_date : Option Nat := none
  end_date : Option Nat := none
  at_date : Option Nat := none
  convert_to : Option String := none
  deriving DecidableEq, Repr

/-- Embedding of `_filter_entries` (ledger.py): an entry is skipped when a
start date is given and the entry date precedes it, when an end date is
given and the entry date exceeds it, or when an as-of date is given and the
entry date exceeds it; the three tests are applied independently (every
directive carries a date, so the date-instance guard always holds). -/
def filter_entries (entries : List Directive) (startD endD atD : Option Nat) :
    List Directive :=
  entries.filter fun e =>
    (match startD with | none => true | some s => !(decide (e.date < s))) &&
    (match endD with | none => true | some n => !(decide (n < e.date))) &&
    (match atD with | none => true | some a => !(decide (a < e.date)))

/-- Modelled from the spec: the filtering rule as the spec states it, with
the as-of test applied only when no end date is supplied. -/
def spec_filter_entries (entries : List Directive)
    (startD endD atD : Option Nat) : List Directive :=
  entries.filter fun e =>
    (match startD with | none => true | some s => !(decide (e.date < s))) &&
    (match endD with | none => true | some n => !(decide (n < e.date))) &&
    (match endD with
      | some _ => true
      | none =>
        match atD with | none => true | some a => !(decide (a < e.date)))

structure PricePoint where
  date : Nat
  base : String
  quote : String
  rate : ℚ
  deriving DecidableEq, Repr

/-- Modelled from the documented behaviour of the external
`beancount.core.prices.build_price_map` collaborator: one price point per
price directive, together with the implied inverse rate. -/
def build_price_map (entries : List Directive) : List PricePoint :=
  entries.foldr
    (fun e acc =>
      match e with
      | .price d b q r => ⟨d, b, q, r⟩ :: ⟨d, q, b, r⁻¹⟩ :: acc
      | _ => acc)
    []

/-- Modelled from the external `beancount.core.prices.get_price`
collaborator: the most recent price of the pair on or before the date; with
no date, the most recent price overall; `none` when no price is
eligible. -/
def price_as_of (pm : List PricePoint) (base quote : String)
    (d : Option Nat) : Option ℚ :=
  let eligible := pm.filter fun p =>
    p.base == base && p.quote == quote &&
      (match d with | none => true | some dd => decide (p.date ≤ dd))
  (eligible.foldl
    (fun best p =>
      match best with
      | none => some p
      | some b => if b.date ≤ p.date then some p else some b)
    none).map (fun p => p.rate)

/-- Modelled from the external `beancount.core.convert.convert_position`
collaborator as used by `_inventory_to_amounts`: a position already in the
target currency is kept; otherwise it is converted at the price as of the
date when one exists, and kept unconverted when none does. -/
def convert_position (pm : List PricePoint) (target : String)
    (d : Option Nat) (pos : String × ℚ) : String × ℚ :=
  if pos.1 == target then pos
  else
    match price_as_of pm pos.1 target d with
    | some r => (target, pos.2 * r)
    | none => pos

/-- Embedding of `_inventory_to_amounts(inv, price_map, convert_to, date)`
(ledger.py): when a target currency is requested, reduce the inventory
through `convert_position`, re-aggregating by currency as
`Inventory.reduce` does; then list the positions as number/currency
pairs. -/
def inventory_to_amounts (inv : Inventory) (pm : List PricePoint)
    (convertTo : Option String) (d : Option Nat) : List (ℚ × String) :=
  let result : Inventory :=
    match convertTo with
    | none => inv
    | some target =>
      (inv.map (convert_position pm target d)).foldl
        (fun (acc : Inventory) p => addAmount acc p.1 p.2) []
  result.map (fun p => (p.2, p.1))

/-- Embedding of `_account_matches` (ledger.py). -/
def account_matches (account : String) (filters : List String)
    (includeChildren : Bool) : Bool :=
  filters.any fun p =>
    account == p || (includeChildren && (p ++ ":").isPrefixOf account)

/-- Per-account accumulation, `balances[posting.account].add_amount`. -/
def updateBalance (bs : List (String × Inventory)) (account cur : String)
    (n : ℚ) : List (String × Inventory) :=
  match bs with
  | [] => [(account, addAmount [] cur n)]
  | b :: rest =>
    if b.1 == account then (b.1, addAmount b.2 cur n) :: rest
    else b :: updateBalance rest account cur n

def insertByAccount (x : String × Inventory) :
    List (String × Inventory) → List (String × Inventory)
  | [] => [x]
  | y :: ys => if x.1 < y.1 then x :: y :: ys else y :: insertByAccount x ys

/-- Python `sorted(balances.items())` on account names. -/
def sortByAccount : List (String × Inventory) → List (String × Inventory)
  | [] => []
  | x :: xs => insertByAccount x (sortByAccount xs)

/-- Accumulation and conversion phases of `LedgerManager.balance`
(ledger.py lines 172 to 190), over an already filtered entry list and an
explicit conversion date: sum posting units per account and into the grand
total, restricted to the requested account prefixes, then convert each
inventory.  `balance` wires in the filtered list and the conversion date
exactly as the source does. -/
def balance_core (entries : List Directive) (filtered : List Directive)
    (request : BalanceRequest) (convDate : Option Nat) :
    List (String × List (ℚ × String)) × List (ℚ × String) :=
  let pm := build_price_map entries
  let accountFilters := request.accounts.getD []
  let acc := filtered.foldl
    (fun (acc : List (String × Inventory) × Inventory) e =>
      match e with
      | .txn t =>
        t.postings.foldl
          (fun acc2 p =>
            if !accountFilters.isEmpty &&
                !(account_matches p.account accountFilters
                  request.include_children) then
              acc2
            else
              (updateBalance acc2.1 p.account p.currency p.number,
               addAmount acc2.2 p.currency p.number))
          acc
      | _ => acc)
    ([], [])
  ((sortByAccount acc.1).map
      (fun b => (b.1, inventory_to_amounts b.2 pm request.convert_to convDate)),
   inventory_to_amounts acc.2 pm request.convert_to convDate)

/-- Embedding of `LedgerManager.balance` (ledger.py): the entries are
filtered with `_filter_entries(entries, start, end, at)` and every
conversion receives `request.end_date` as its date.  The `as_of` field of
the result and the unused `rollup` flag are not modelled; no claim reads
them. -/
def balance (entries : List Directive) (request : BalanceRequest) :
    List (String × List (ℚ × String)) × List (ℚ × String) :=
  balance_core entries
    (filter_entries entries request.start_date request.end_date
      request.at_date)
    request request.end_date

/-- Modelled from the spec: `balance` as claim C4 reads it, with the as-of
filter applied only when the end date is absent. -/
def spec_balance_c4 (entries : List Directive) (request : BalanceRequest) :
    List (String × List (ℚ × String)) × List (ℚ × String) :=
  balance_core entries
    (spec_filter_entries entries request.start_date request.end_date
      request.at_date)
    request request.end_date

/-- Modelled from the spec: the conversion date as claim C5 states it, the
end date when present, otherwise the as-of date. -/
def spec_as_of_date (endD atD : Option Nat) : Option Nat :=
  match endD with
  | some e => some e
  | none => atD

/-- Modelled from the spec: `balance` as claim C5 reads it, converting as of
`spec_as_of_date`. -/
def spec_balance_c5 (entries : List Directive) (request : BalanceRequest) :
    List (String × List (ℚ × String)) × List (ℚ × String) :=
  balance_core entries
    (filter_entries entries request.start_date request.end_date
      request.at_date)
    request (spec_as_of_date request.end_date request.at_date)

structure ListTransactionsRequest where
  start_date : Option Nat := none
  end_date : Option Nat := none
  accounts : Option (List String) := none
  payee : Option String := none
  narration : Option String := none
  tags : Option (List String) := none
  metadata : Option (List (String × String)) := none
  limit : Option Nat := some 50
  offset : Nat := 0
  include_postings : Bool := true
  deriving DecidableEq, Repr

/-- Case-insensitive substring test, the negation of Python
`haystack.lower().find(needle.lower()) == -1`. -/
def containsCi (haystack needle : String) : Bool :=
  decide (List.IsInfix needle.toLower.data haystack.toLower.data)

/-- Embedding of `_metadata_matches` (ledger.py) for a non-empty expected
mapping. -/
def metadata_matches (meta : List (String × String))
    (expected : List (String × String)) : Bool :=
  expected.all fun kv => meta.lookup kv.1 == some kv.2

/-- Filter conditions of `list_transactions` (ledger.py lines 237 to 252);
an empty string, list or mapping is falsy in Python, so such a filter is
skipped. -/
def txn_filter_matches (request : ListTransactionsRequest)
    (t : Transaction) : Bool :=
  (match request.start_date with
    | none => true | some s => !(decide (t.date < s))) &&
  (match request.end_date with
    | none => true | some n => !(decide (n < t.date))) &&
  (match request.payee with
    | none => true
    | some p => if p = "" then true else containsCi (t.payee.getD "") p) &&
  (match request.narration with
    | none => true
    | some p => if p = "" then true else containsCi (t.narration.getD "") p) &&
  (match request.tags with
    | none => true
    | some tags =>
      if tags = [] then true else tags.all (fun tag => t.tags.contains tag)) &&
  (match request.metadata with
    | none => true
    | some md => if md = [] then true else metadata_matches t.meta md) &&
  (match request.accounts.getD [] with
    | [] => true
    | accts => t.postings.any (fun p => account_matches p.account accts true))

/-- Embedding of `LedgerManager.list_transactions` (ledger.py): collect the
matching transactions, record the total before pagination, then slice with
`matches[offset:]` when the limit is None and `matches[offset:offset+limit]`
otherwise.  The per-transaction serialisation `_to_transaction_model` is a
one-to-one mapping no claim inspects, so the slice holds the transactions
themselves. -/
def list_transactions (entries : List Directive)
    (request : ListTransactionsRequest) : Nat × List Transaction :=
  let matched := entries.filterMap fun e =>
    match e with
    | .txn t => if txn_filter_matches request t then some t else none
    | _ => none
  let total := matched.length
  let selected :=
    match request.limit with
    | none => matched.drop request.offset
    | some l => (matched.drop request.offset).take l
  (total, selected)

/-! Helper lemmas about the manager state. -/

/-- Loading never touches the file, the stat mtime or the backup
directory. -/
theorem load_preserves (parse : ParseFn) (st : ManagerState) (force : Bool) :
    (load parse st force).2.fileText = st.fileText ∧
    (load parse st force).2.mtime = st.mtime ∧
    (load parse st force).2.backups = st.backups := by
  unfold load reload_snapshot
  cases st.snapshot with
  | none => exact ⟨rfl, rfl, rfl⟩
  | some snap =>
    by_cases h : force = false ∧ snap.mtime = st.mtime ∧
        snap.size = st.fileText.length
    · simp [h]
    · simp [h]

/-- A state is coherent when its cached snapshot, if any, caches the text
actually on disk; every state reachable through the engine is coherent. -/
def coherent (st : ManagerState) : Prop :=
  ∀ snap, st.snapshot = some snap → snap.text = st.fileText

theorem load_text (parse : ParseFn) (st : ManagerState) (force : Bool)
    (hco : coherent st) : (load parse st force).1.text = st.fileText := by
  unfold load reload_snapshot
  cases hs : st.snapshot with
  | none => rfl
  | some snap =>
    by_cases h : force = false ∧ snap.mtime = st.mtime ∧
        snap.size = st.fileText.length
    · simpa [h] using hco snap hs
    · simp [h]

/-- Claim C7: when a cached snapshot records the mtime and size the stat
currently reports, `load` without force returns that snapshot unchanged,
re-reading and re-parsing nothing (the whole state, including the parse
counter, is untouched); consequently a second load issued right after any
load, with no intervening file change, returns the identical snapshot and
again leaves the state, including the parse counter, unchanged. -/
theorem load_cache_hit (parse : ParseFn) (st : ManagerState) :
    (∀ snap, st.snapshot = some snap → snap.mtime = st.mtime →
      snap.size = st.fileText.length → load parse st false = (snap, st)) ∧
    load parse (load parse st false).2 false = load parse st false := by
  constructor
  · intro snap hsnap hm hs
    unfold load
    rw [hsnap]
    simp [hm, hs]
  · cases hs : st.snapshot with
    | none => simp [load, hs, reload_snapshot]
    | some snap =>
      by_cases h : snap.mtime = st.mtime ∧ snap.size = st.fileText.length
      · simp [load, hs, h]
      · have h2 : ¬ (false = false ∧ snap.mtime = st.mtime ∧
            snap.size = st.fileText.length) := by simpa using h
        simp [load, hs, h2, h, reload_snapshot]

/-- Concrete snapshot for the C7 witness. -/
def c7Snap : LedgerSnapshot :=
  { entries := [], text := "a\n".data, mtime := 5, size := 2 }

/-- Concrete manager state for the C7 witness. -/
def c7State : ManagerState :=
  { fileText := "a\n".data, mtime := 5, backups := [],
    snapshot := some c7Snap, parseCount := 1 }

/-- Witness for C7 at a concrete cached state. -/
theorem load_cache_hit_witness :
    load (fun _ => []) c7State false = (c7Snap, c7State) :=
  (load_cache_hit (fun _ => []) c7State).1 c7Snap rfl rfl rfl

/-- Committing bumps the stat mtime by exactly one step. -/
theorem mtime_after_commit (parse : ParseFn) (cfg : AppConfig)
    (ts : String) (st1 : ManagerState) (text : Text) :
    (load parse (write_ledger cfg ts st1 text) true).2.mtime
      = st1.mtime + 1 := by
  have := (load_preserves parse (write_ledger cfg ts st1 text) true).2.1
  simpa [write_ledger] using this

/-- Claim C9: a mutation request with `dry_run` unset behaves exactly as if
`dry_run` were the configured `dry_run_default`; that flag defaults to
false in `AppConfig`, and when it is false a successful call with unset
`dry_run` reports a non-dry run and commits for real, bumping the stat
mtime through the atomic replacement. -/
theorem dry_run_default_applies (parse : ParseFn) (errorsOf : ErrorsFn)
    (cfg : AppConfig) (freshId timestamp : String) (st : ManagerState)
    (reqI : InsertTransactionRequest) (reqR : RemoveTransactionRequest)
    (name : String)
    (hI : reqI.dry_run = none) (hR : reqR.dry_run = none) :
    insert_transaction parse errorsOf cfg freshId timestamp st reqI =
      insert_transaction parse errorsOf cfg freshId timestamp st
        { reqI with dry_run := some cfg.dry_run_default } ∧
    remove_transaction parse errorsOf cfg timestamp st reqR =
      remove_transaction parse errorsOf cfg timestamp st
        { reqR with dry_run := some cfg.dry_run_default } ∧
    ({ ledgerName := name } : AppConfig).dry_run_default = false ∧
    (cfg.dry_run_default = false →
      ∀ r st2, insert_transaction parse errorsOf cfg freshId timestamp st reqI
          = (.ok r, st2) →
        r.dry_run = false ∧ st2.mtime = st.mtime + 1) ∧
    (cfg.dry_run_default = false →
      ∀ r st2, remove_transaction parse errorsOf cfg timestamp st reqR
          = (.ok r, st2) →
        r.dry_run = false ∧ st2.mtime = st.mtime + 1) := by
  refine ⟨?_, ?_, rfl, ?_, ?_⟩
  · cases reqI
    simp only at hI
    subst hI
    rfl
  · cases reqR
    simp only at hR
    subst hR
    rfl
  · intro hd r st2 h
    have hm1 := (load_preserves parse st false).2.1
    simp only [insert_transaction, hI, hd, Option.getD_none] at h
    split at h
    · exact absurd (congrArg Prod.fst h) (by simp)
    · split at h
      · exact absurd (congrArg Prod.fst h) (by simp)
      · split at h
        · exact absurd (congrArg Prod.fst h) (by simp)
        · rw [if_neg (by simp)] at h
          rw [Prod.mk.injEq] at h
          obtain ⟨h1, h2⟩ := h
          constructor
          · have := congrArg InsertTransactionResult.dry_run
              (Except.ok.inj h1)
            simpa using this.symm
          · rw [← h2, mtime_after_commit, hm1]
  · intro hd r st2 h
    have hm1 := (load_preserves parse st false).2.1
    simp only [remove_transaction, hR, hd, Option.getD_none] at h
    split at h
    · exact absurd (congrArg Prod.fst h) (by simp)
    · split at h
      · exact absurd (congrArg Prod.fst h) (by simp)
      · split at h
        · exact absurd (congrArg Prod.fst h) (by simp)
        · rw [if_neg (by simp)] at h
          rw [Prod.mk.injEq] at h
          obtain ⟨h1, h2⟩ := h
          constructor
          · have := congrArg RemoveTransactionResult.dry_run
              (Except.ok.inj h1)
            simpa using this.symm
          · rw [← h2, mtime_after_commit, hm1]

/-! Lemmas connecting the inventory fold of `_build_transaction` with
per-currency sums. -/

def postingCurrencySum (ps : List Posting) (c : String) : ℚ :=
  (ps.map (fun p => if p.currency == c then p.number else 0)).sum

theorem find?_filter_ne (inv : Inventory) (c d : String) (h : ¬ d = c) :
    (inv.filter (fun p => !(p.1 == c))).find? (fun p => p.1 == d) =
      inv.find? (fun p => p.1 == d) := by
  have hcd : ¬ c = d := fun h2 => h h2.symm
  induction inv with
  | nil => rfl
  | cons kv rest ih =>
    by_cases hkc : kv.1 = c
    · rw [List.filter_cons_of_neg (by simp [hkc]),
        List.find?_cons_of_neg _ (by simp [hkc, hcd]), ih]
    · by_cases hkd : kv.1 = d
      · rw [List.filter_cons_of_pos (by simp [hkc]),
          List.find?_cons_of_pos _ (by simp [hkd]),
          List.find?_cons_of_pos _ (by simp [hkd])]
      · rw [List.filter_cons_of_pos (by simp [hkc]),
          List.find?_cons_of_neg _ (by simp [hkd]),
          List.find?_cons_of_neg _ (by simp [hkd]), ih]

theorem invValue_addAmount (inv : Inventory) (c : String) (n : ℚ)
    (d : String) :
    invValue (addAmount inv c n) d =
      if d = c then invValue inv c + n else invValue inv d := by
  have hfind : (inv.filter (fun p => !(p.1 == c))).find?
      (fun p => p.1 == c) = none := by
    apply List.find?_eq_none.mpr
    intro p hp
    simpa using (List.mem_filter.mp hp).2
  by_cases hd : d = c <;>
    by_cases hz :
      ((inv.find? (fun p => p.1 == c)).map Prod.snd).getD 0 + n = 0
  · subst hd
    simp [addAmount, invValue, hz, hfind]
  · subst hd
    simp [addAmount, invValue, hz, List.find?_cons_of_pos]
  · have hcd : ¬ c = d := fun h2 => hd h2.symm
    simp [addAmount, invValue, hz, hd, find?_filter_ne inv c d hd]
  · have hcd : ¬ c = d := fun h2 => hd h2.symm
    simp [addAmount, invValue, hz, hd, hcd,
      find?_filter_ne inv c d hd, List.find?_cons_of_neg]

theorem invValue_foldl (ps : List Posting) (inv : Inventory) (c : String) :
    invValue (ps.foldl (fun inv p => addAmount inv p.currency p.number) inv) c
      = invValue inv c + postingCurrencySum ps c := by
  induction ps generalizing inv with
  | nil => simp [postingCurrencySum]
  | cons p rest ih =>
    rw [List.foldl_cons, ih, invValue_addAmount]
    by_cases hc : c = p.currency
    · rw [if_pos hc]
      subst hc
      simp [postingCurrencySum]
      ring
    · rw [if_neg hc]
      have hpc : ¬ (p.currency == c) = true := by
        simp only [beq_iff_eq]
        exact fun h2 => hc h2.symm
      simp only [postingCurrencySum, List.map_cons, List.sum_cons, if_neg hpc]
      ring

theorem postingCurrencySum_map (ps : List PostingInput) (c : String) :
    postingCurrencySum
      (ps.map (fun p => Posting.mk p.account p.amount p.currency)) c
      = currencySum ps c := by
  simp only [postingCurrencySum, currencySum, List.map_map]
  rfl

/-- Claim C1: an insert request whose posting amounts do not sum to exactly
zero in some currency always fails with TransactionValidationError —
whatever its dry-run setting — and the on-disk ledger file and the backup
directory are untouched: no write happens and no backup is created. -/
theorem insert_unbalanced_rejected (parse : ParseFn) (errorsOf : ErrorsFn)
    (cfg : AppConfig) (freshId timestamp : String) (st : ManagerState)
    (request : InsertTransactionRequest)
    (h : ∃ c, currencySum request.postings c ≠ 0) :
    (insert_transaction parse errorsOf cfg freshId timestamp st request).1 =
      .error .transactionValidationError ∧
    (insert_transaction parse errorsOf cfg freshId timestamp st
        request).2.fileText = st.fileText ∧
    (insert_transaction parse errorsOf cfg freshId timestamp st
        request).2.backups = st.backups := by
  obtain ⟨c, hc⟩ := h
  have hne : (request.postings.map
      (fun p => Posting.mk p.account p.amount p.currency)).foldl
      (fun inv p => addAmount inv p.currency p.number) [] ≠ [] := by
    intro h0
    apply hc
    have hv := invValue_foldl (request.postings.map
      (fun p => Posting.mk p.account p.amount p.currency)) [] c
    rw [h0, postingCurrencySum_map] at hv
    simpa [invValue] using hv.symm
  have hbuild : build_transaction request (request.txn_id.getD freshId) =
      .error .transactionValidationError := by
    unfold build_transaction
    rw [if_pos hne]
  have hpre := load_preserves parse st false
  by_cases hdup : (List.filterMap
      (txnIdMatches (request.txn_id.getD freshId))
      (load parse st false).1.entries) = []
  · simp [insert_transaction, hdup, hbuild, hpre.1, hpre.2.2]
  · simp [insert_transaction, hdup, hpre.1, hpre.2.2]

/-- Concrete unbalanced request for the C1 witness. -/
def c1Request : InsertTransactionRequest :=
  { date := 1,
    postings := [⟨"Expenses:Food", 5, "USD"⟩,
                 ⟨"Assets:Bank:Checking", -6, "USD"⟩] }

/-- Witness for C1 at a concrete unbalanced request. -/
theorem insert_unbalanced_rejected_witness :
    (insert_transaction (fun _ => []) (fun _ => [])
        { ledgerName := "example.beancount" } "f" "t" c7State c1Request).1 =
      .error .transactionValidationError :=
  (insert_unbalanced_rejected (fun _ => []) (fun _ => [])
    { ledgerName := "example.beancount" } "f" "t" c7State c1Request
    ⟨"USD", by with_unfolding_all decide⟩).1

/-- Claim C10: when the transaction resolved by `txn_id` carries a `lineno`
below 1 or above the number of lines of the snapshot text, the removal
fails with LedgerLoadError — not TransactionValidationError — and the
on-disk ledger file and the backup directory are untouched. -/
theorem remove_lineno_out_of_range (parse : ParseFn) (errorsOf : ErrorsFn)
    (cfg : AppConfig) (timestamp : String) (st : ManagerState)
    (request : RemoveTransactionRequest) (txn : Transaction) (L : Int)
    (hget : get_transaction (load parse st false).1.entries request.txn_id
      = .ok txn)
    (hline : txn.lineno = some L)
    (hrange : L < 1 ∨
      ((splitlines (load parse st false).1.text).length : Int) < L) :
    (remove_transaction parse errorsOf cfg timestamp st request).1 =
      .error .ledgerLoadError ∧
    (remove_transaction parse errorsOf cfg timestamp st
      request).2.fileText = st.fileText ∧
    (remove_transaction parse errorsOf cfg timestamp st
      request).2.backups = st.backups := by
  have hpre := load_preserves parse st false
  have hrem : remove_entry_core (load parse st false).1.text txn.lineno
      = .error .ledgerLoadError := by
    rw [hline]
    simp only [remove_entry_core]
    rw [if_pos]
    omega
  simp [remove_transaction, hget, hrem, hpre.1, hpre.2.2]

/-- Concrete transaction with an out-of-range lineno for the C10 witness. -/
def c10Txn : Transaction :=
  { date := 1, txn_id := some "x", lineno := some 99 }

/-- Concrete cached snapshot for the C10 witness. -/
def c10Snap : LedgerSnapshot :=
  { entries := [.txn c10Txn], text := "a\n".data, mtime := 5, size := 2 }

/-- Concrete manager state for the C10 witness. -/
def c10State : ManagerState :=
  { fileText := "a\n".data, mtime := 5, backups := [],
    snapshot := some c10Snap, parseCount := 1 }

/-- Witness for C10: lineno 99 in a one-line ledger. -/
theorem remove_lineno_out_of_range_witness :
    (remove_transaction (fun _ => []) (fun _ => [])
        { ledgerName := "example.beancount" } "t" c10State
        { txn_id := "x" }).1 = .error .ledgerLoadError :=
  (remove_lineno_out_of_range (fun _ => []) (fun _ => [])
    { ledgerName := "example.beancount" } "t" c10State { txn_id := "x" }
    c10Txn 99 rfl rfl (by decide)).1

/-- Claim C6 amended: the returned total always equals the full number of
matches, independent of offset and limit, and a limit explicitly set to
None returns every match after the offset; but an absent limit is not
None — the schema defaults it to 50, which truncates the slice. -/
theorem list_transactions_pagination (entries : List Directive)
    (request : ListTransactionsRequest) :
    (list_transactions entries request).1 =
      (list_transactions entries
        { request with offset := 0, limit := none }).2.length ∧
    (request.limit = none →
      (list_transactions entries request).2 =
        (list_transactions entries
          { request with offset := 0, limit := none }).2.drop
          request.offset) ∧
    ({} : ListTransactionsRequest).limit = some 50 := by
  obtain ⟨s, e, a, p, n, tg, md, lim, off, ip⟩ := request
  refine ⟨rfl, ?_, rfl⟩
  intro h
  simp only at h
  subst h
  rfl

/-- Witness for C6 at a concrete request with limit None. -/
theorem list_transactions_pagination_witness :
    (list_transactions [] { limit := none }).2 =
      (list_transactions []
        { ({ limit := none } : ListTransactionsRequest) with
          offset := 0, limit := none }).2.drop 0 :=
  ((list_transactions_pagination [] { limit := none }).2.1 rfl)

/-- Entries for the C6 counterexample: 51 matching transactions. -/
def c6Entries : List Directive :=
  List.replicate 51 (.txn { date := 1 })

/-- Counterexample for C6 as stated: with the limit absent (the schema
default), 51 transactions match — the total says 51 — but the returned
slice holds only 50 of them, not all matches after the offset. -/
theorem list_transactions_default_limit_cex :
    (list_transactions c6Entries {}).1 = 51 ∧
    (list_transactions c6Entries {}).2.length = 50 ∧
    ({} : ListTransactionsRequest).limit = some 50 := by
  decide

/-- Claim C4 amended: in `balance` the three date tests are applied
independently and conjunctively — a directive contributes exactly when its
date is on or after the start date (when given), on or before the end date
(when given), and on or before the as-of date (when given); the as-of
filter is not disabled by a present end date. -/
theorem filter_entries_conjunctive (entries : List Directive)
    (startD endD atD : Option Nat) (e : Directive) :
    e ∈ filter_entries entries startD endD atD ↔
      e ∈ entries ∧
      (∀ s, startD = some s → s ≤ e.date) ∧
      (∀ n, endD = some n → e.date ≤ n) ∧
      (∀ a, atD = some a → e.date ≤ a) := by
  simp only [filter_entries, List.mem_filter, Bool.and_eq_true]
  cases startD <;> cases endD <;> cases atD <;>
    simp [Nat.not_lt, and_assoc]

/-- Entries for the C4 counterexample: one transaction dated 5. -/
def c4Entries : List Directive :=
  [.txn { date := 5, postings := [⟨"Assets:A", 1, "USD"⟩] }]

/-- Request for the C4 counterexample: end date 10 with as-of date 3. -/
def c4Request : BalanceRequest :=
  { end_date := some 10, at_date := some 3 }

/-- Counterexample for C4 as stated: with both end date 10 and as-of date 3
supplied, the transaction dated 5 lies inside the start/end window, so
under the claim it would contribute; the code also applies the as-of
filter and returns empty balances instead. -/
theorem balance_at_with_end_cex :
    balance c4Entries c4Request = ([], []) ∧
    spec_balance_c4 c4Entries c4Request =
      ([("Assets:A", [(1, "USD")])], [(1, "USD")]) ∧
    balance c4Entries c4Request ≠ spec_balance_c4 c4Entries c4Request := by
  refine ⟨?_, ?_, ?_⟩ <;> with_unfolding_all decide

/-- Claim C5 amended: conversion always uses `request.end_date` as the
price date; the rule stated by the spec — end date, or as-of date when the
end date is absent — agrees with the code exactly when an end date is
present. -/
theorem balance_conversion_matches_spec_with_end (entries : List Directive)
    (request : BalanceRequest) (e : Nat) (h : request.end_date = some e) :
    balance entries request = spec_balance_c5 entries request := by
  unfold balance spec_balance_c5 spec_as_of_date
  rw [h]

/-- Witness for C5 with a present end date. -/
theorem balance_conversion_matches_spec_with_end_witness :
    balance [] { end_date := some 1 } =
      spec_balance_c5 [] { end_date := some 1 } :=
  balance_conversion_matches_spec_with_end [] { end_date := some 1 } 1 rfl

/-- Entries for the C5 counterexample: one posting of 1 USD dated 0, and
USD to EUR prices of 2 on date 1 and 3 on date 10. -/
def c5Entries : List Directive :=
  [.txn { date := 0, postings := [⟨"Assets:A", 1, "USD"⟩] },
   .price 1 "USD" "EUR" 2, .price 10 "USD" "EUR" 3]

/-- Request for the C5 counterexample: as-of date 5, no end date,
conversion to EUR. -/
def c5Request : BalanceRequest :=
  { at_date := some 5, convert_to := some "EUR" }

/-- Counterexample for C5 as stated: with no end date and as-of date 5 the
claim prescribes the price as of date 5, rate 2; the code passes
`end_date`, here None, so the conversion uses the latest price, rate 3. -/
theorem balance_conversion_date_cex :
    balance c5Entries c5Request =
      ([("Assets:A", [(3, "EUR")])], [(3, "EUR")]) ∧
    spec_balance_c5 c5Entries c5Request =
      ([("Assets:A", [(2, "EUR")])], [(2, "EUR")]) ∧
    balance c5Entries c5Request ≠ spec_balance_c5 c5Entries c5Request := by
  refine ⟨?_, ?_, ?_⟩ <;> with_unfolding_all decide

/-! Lexicographic facts behind backup pruning: backup names with
fixed-width timestamps sort like their timestamps. -/

theorem lex_append_of_length_eq {a b x y : List Char}
    (hlen : a.length = b.length) (h : List.Lex (· < ·) a b) :
    List.Lex (· < ·) (a ++ x) (b ++ y) := by
  induction h generalizing x y with
  | nil => simp at hlen
  | cons h2 ih => exact .cons (ih (by simpa using hlen))
  | rel h2 => exact .rel h2

theorem backupName_lt (cfg : AppConfig) {t1 t2 : String}
    (hlen : t1.length = t2.length) (h : t1 < t2) :
    backupName cfg t1 < backupName cfg t2 := by
  rw [String.lt_iff_toList_lt] at h ⊢
  have heq : ∀ t : String, (backupName cfg t).toList =
      (cfg.ledgerName ++ ".").toList ++ (t.toList ++ ".bak".toList) := by
    intro t
    show (cfg.ledgerName ++ "." ++ t ++ ".bak").data = _
    simp [String.data_append, List.append_assoc]
  rw [heq t1, heq t2]
  exact List.Lex.append_left _ (lex_append_of_length_eq hlen h) _

/-- Claim C8: with backup retention 2 and an initially empty backup
directory, three successive committed writes, stamped with increasing
equal-width timestamps, leave exactly two backup files: those of the two
later writes, newest first, named ledgerName.timestamp.bak. -/
theorem backup_pruning (cfg : AppConfig) (h2 : cfg.backup_retention = some 2)
    (t1 t2 t3 : String) (x1 x2 x3 : Text) (st : ManagerState)
    (hb : st.backups = [])
    (hlen12 : t1.length = t2.length) (hlen23 : t2.length = t3.length)
    (h12 : t1 < t2) (h23 : t2 < t3) :
    (write_ledger cfg t3 (write_ledger cfg t2 (write_ledger cfg t1 st x1)
        x2) x3).backups = [backupName cfg t3, backupName cfg t2] ∧
    backupName cfg t3 = cfg.ledgerName ++ "." ++ t3 ++ ".bak" := by
  refine ⟨?_, rfl⟩
  have h13 : t1 < t3 := lt_trans h12 h23
  have n12 : backupName cfg t1 < backupName cfg t2 := backupName_lt cfg hlen12 h12
  have n23 : backupName cfg t2 < backupName cfg t3 := backupName_lt cfg hlen23 h23
  have n13 : backupName cfg t1 < backupName cfg t3 :=
    backupName_lt cfg (hlen12.trans hlen23) h13
  have ne12 : ¬ backupName cfg t1 = backupName cfg t2 := ne_of_lt n12
  have ne13 : ¬ backupName cfg t1 = backupName cfg t3 := ne_of_lt n13
  have ne23 : ¬ backupName cfg t2 = backupName cfg t3 := ne_of_lt n23
  have nlt21 : ¬ backupName cfg t2 < backupName cfg t1 := not_lt_of_gt n12
  have nlt31 : ¬ backupName cfg t3 < backupName cfg t1 := not_lt_of_gt n13
  have nlt32 : ¬ backupName cfg t3 < backupName cfg t2 := not_lt_of_gt n23
  have ne21 : ¬ backupName cfg t2 = backupName cfg t1 := fun h => ne12 h.symm
  have ne31 : ¬ backupName cfg t3 = backupName cfg t1 := fun h => ne13 h.symm
  have ne32 : ¬ backupName cfg t3 = backupName cfg t2 := fun h => ne23 h.symm
  simp [write_ledger, prune_backups, h2, hb, sortDesc, insertDesc,
    n12, n23, n13, ne12, ne13, ne23, ne21, ne31, ne32]

/-- Configuration with retention 2 for the C8 witness. -/
def c8Cfg : AppConfig :=
  { ledgerName := "example.beancount", backup_retention := some 2 }

/-- Witness for C8 at concrete increasing timestamps. -/
theorem backup_pruning_witness :
    (write_ledger c8Cfg "20200101-000002"
        (write_ledger c8Cfg "20200101-000001"
          (write_ledger c8Cfg "20200101-000000" c7State "a".data) "b".data)
        "c".data).backups =
      [backupName c8Cfg "20200101-000002",
       backupName c8Cfg "20200101-000001"] :=
  (backup_pruning c8Cfg rfl "20200101-000000" "20200101-000001"
    "20200101-000002" "a".data "b".data "c".data c7State rfl rfl rfl
    (by rw [String.lt_iff_toList_lt]; decide)
    (by rw [String.lt_iff_toList_lt]; decide)).1

/-- Request with unset dry_run for the C9 witness. -/
def c9Req : InsertTransactionRequest := { date := 1, postings := [] }

/-- Witness for C9: with the default configuration, an unset dry_run equals
an explicit dry_run of false. -/
theorem dry_run_default_applies_witness :
    insert_transaction (fun _ => []) (fun _ => [])
        { ledgerName := "example.beancount" } "f" "t" c7State c9Req =
      insert_transaction (fun _ => []) (fun _ => [])
        { ledgerName := "example.beancount" } "f" "t" c7State
        { c9Req with dry_run := some false } :=
  (dry_run_default_applies (fun _ => []) (fun _ => [])
    { ledgerName := "example.beancount" } "f" "t" c7State c9Req
    { txn_id := "x" } "n" rfl rfl).1

/-! Helpers for the insert/remove round trip. -/

theorem exists_getLast? {α : Type} {l : List α} (h : l ≠ []) :
    ∃ x, l.getLast? = some x := by
  induction l with
  | nil => exact absurd rfl h
  | cons a as ih =>
    cases as with
    | nil => exact ⟨a, rfl⟩
    | cons b bs =>
      obtain ⟨x, hx⟩ := ih (by simp)
      exact ⟨x, by rw [getLast?_cons_of_ne_nil a (by simp)]; exact hx⟩

theorem takeWhile_append_of_all {α : Type} (p : α → Bool) {A : List α}
    (B : List α) (h : ∀ a ∈ A, p a = true) :
    (A ++ B).takeWhile p = A ++ B.takeWhile p := by
  induction A with
  | nil => rfl
  | cons a as ih =>
    rw [List.cons_append, List.takeWhile_cons, if_pos (h a (by simp)),
      ih (fun a ha => h a (List.mem_cons_of_mem _ ha))]
    rfl

theorem goodLines_no_nl {ls : List Text} {l : Text}
    (hg : goodLines ls = true) (hl : l ∈ ls) : '\n' ∉ l := by
  intro hmem
  have h1 := (List.all_eq_true.mp hg) l hl
  have h2 := (List.all_eq_true.mp (Bool.and_elim_left h1)) '\n' hmem
  simp at h2

theorem goodLines_nonblank {ls : List Text} {l : Text}
    (hg : goodLines ls = true) (hl : l ∈ ls) : isBlankLine l = false := by
  have h1 := (List.all_eq_true.mp hg) l hl
  have h2 := Bool.and_elim_right h1
  simpa using h2

theorem goodLines_ne_nil {ls : List Text} {l : Text}
    (hg : goodLines ls = true) (hl : l ∈ ls) : l ≠ [] := by
  intro h
  have := goodLines_nonblank hg hl
  rw [h] at this
  simp [isBlankLine] at this

theorem entryLines_ne_nil (t : Transaction) : entryLines t ≠ [] := by
  simp [entryLines]

theorem joinNl_ne_nil {M : List Text} {x : Text} (hM : M.getLast? = some x)
    (hx : x ≠ []) : joinNl M ≠ [] := by
  cases M with
  | nil => simp at hM
  | cons l ls =>
    cases ls with
    | nil =>
      simp only [List.getLast?_singleton, Option.some_inj] at hM
      subst hM
      simpa [joinNl] using hx
    | cons m ms => simp [joinNl_cons l (m :: ms) (by simp)]

theorem joinNl_getLast {M : List Text} {x : Text} (hM : M.getLast? = some x)
    (hx : x ≠ []) : (joinNl M).getLast? = x.getLast? := by
  induction M with
  | nil => simp at hM
  | cons l ls ih =>
    cases hls : ls with
    | nil =>
      subst hls
      simp only [List.getLast?_singleton, Option.some_inj] at hM
      subst hM
      rfl
    | cons m ms =>
      subst hls
      have hM2 : (m :: ms).getLast? = some x := by
        rwa [getLast?_cons_of_ne_nil l (by simp)] at hM
      rw [joinNl_cons l (m :: ms) (by simp),
        List.getLast?_append_of_ne_nil _
          (by simp [joinNl_ne_nil hM2 hx]),
        getLast?_cons_of_ne_nil '\n' (joinNl_ne_nil hM2 hx)]
      exact ih hM2

theorem trailingNewlines_append_two {X : Text}
    (h : X.getLast? ≠ some '\n') :
    trailingNewlines (X ++ ['\n', '\n']) = 2 := by
  have h1 : X ++ ['\n', '\n'] = (X ++ ['\n']) ++ ['\n'] := by simp
  rw [h1, trailingNewlines_append_single, if_pos rfl,
    trailingNewlines_append_single, if_pos rfl, trailingNewlines_eq_zero h]

/-- Effect of `_remove_entry` on a text whose line list decomposes as a
prefix, a non-blank block and one trailing blank line, at the lineno of the
first block line: the block and the blank line disappear. -/
theorem remove_entry_core_block {N : Text} {P ls : List Text}
    (hsp : splitlines N = P ++ (ls ++ [[]]))
    (hblock : ∀ l ∈ ls, isBlankLine l = false) :
    remove_entry_core N (some ((P.length : Int) + 1)) =
      .ok (rstripNl (joinNl P) ++
        List.replicate
          (if trailingNewlines N = 0 then 1 else trailingNewlines N)
          '\n') := by
  simp only [remove_entry_core]
  rw [hsp]
  have hidx : ¬ (((P.length : Int) + 1 - 1 < 0) ∨
      (((P ++ (ls ++ [[]])).length : Int) ≤ (P.length : Int) + 1 - 1)) := by
    simp only [List.length_append, List.length_cons]
    omega
  rw [if_neg hidx]
  have htoNat : ((P.length : Int) + 1 - 1).toNat = P.length := by omega
  rw [htoNat]
  have hdrop : (P ++ (ls ++ [[]])).drop P.length = ls ++ [[]] :=
    List.drop_left P (ls ++ [[]])
  rw [hdrop]
  have hblock2 : (ls ++ [[]]).takeWhile (fun l => !(isBlankLine l)) = ls := by
    rw [takeWhile_append_of_all _ [[]]
      (fun a ha => by simp [hblock a ha])]
    simp [List.takeWhile_cons, isBlankLine]
  rw [hblock2]
  have hblanks : ((ls ++ [[]]).drop ls.length).takeWhile
      (fun l => isBlankLine l) = [[]] := by
    rw [List.drop_left ls [[]]]
    simp [List.takeWhile_cons, isBlankLine]
  rw [hblanks]
  have htake : (P ++ (ls ++ [[]])).take P.length = P :=
    List.take_left P (ls ++ [[]])
  rw [htake]
  have hdropall : (P ++ (ls ++ [[]])).drop (P.length + (ls.length + 1))
      = [] := by
    apply List.drop_eq_nil_of_le
    simp
  simp [hdropall]

/-- Modelled from the spec: the external parser records each directive's
first source line in its `lineno` metadata; for the entry appended by
`_append_entry` this is the line after the blank separator, or line 1 when
the stripped file was empty. -/
def lineno_after_append (original : Text) : Int :=
  if rstripAll original = [] then 1
  else ((splitlines (rstripAll original)).length : Int) + 2

/-- Insert followed by remove at the text level: append the rendered entry
to the original text, then remove it through the lineno the reloaded
snapshot records for it, composing `_append_entry` and `_remove_entry`
exactly as a committed `insert_transaction` followed by
`remove_transaction` by the returned txn id does. -/
def insert_then_remove (original entry : Text) : Except MCPError Text :=
  remove_entry_core (append_entry original entry)
    (some (lineno_after_append original))

/-- Claim C2 amended: inserting a rendered transaction and then removing it
by its returned txn id does not restore arbitrary initial content
byte-for-byte; it always yields the original with its trailing whitespace
replaced by exactly two newline characters, so the round trip is
byte-identical precisely when the original already ends that way. -/
theorem insert_remove_round_trip (original : Text) (t : Transaction)
    (hg : goodLines (entryLines t) = true) :
    insert_then_remove original (format_entry t) =
      .ok (rstripAll original ++ ['\n', '\n']) ∧
    (insert_then_remove original (format_entry t) = .ok original ↔
      original = rstripAll original ++ ['\n', '\n']) := by
  have hlsne : entryLines t ≠ [] := entryLines_ne_nil t
  have hnl : ∀ l ∈ entryLines t, '\n' ∉ l := fun l hl => goodLines_no_nl hg hl
  have hnb : ∀ l ∈ entryLines t, isBlankLine l = false :=
    fun l hl => goodLines_nonblank hg hl
  have hF : format_entry t = joinNl (entryLines t) ++ ['\n'] :=
    concatNl_eq_joinNl hlsne
  obtain ⟨x, hx⟩ := exists_getLast? hlsne
  have hxmem : x ∈ entryLines t := getLast?_mem' hx
  have hxne : x ≠ [] := goodLines_ne_nil hg hxmem
  have hJne : joinNl (entryLines t) ≠ [] := joinNl_ne_nil hx hxne
  have hJlast : (joinNl (entryLines t)).getLast? ≠ some '\n' := by
    rw [joinNl_getLast hx hxne]
    intro hcon
    exact hnl x hxmem (getLast?_mem' hcon)
  have hFsplit : splitlines (format_entry t ++ ['\n']) =
      entryLines t ++ [[]] := splitlines_concatNl hnl
  have main : insert_then_remove original (format_entry t) =
      .ok (rstripAll original ++ ['\n', '\n']) := by
    by_cases hS : rstripAll original = []
    · have hN : append_entry original (format_entry t) =
          format_entry t ++ ['\n'] := by
        simp [append_entry, hS]
      have hsp : splitlines (append_entry original (format_entry t)) =
          [] ++ (entryLines t ++ [[]]) := by
        rw [hN, hFsplit]
        rfl
      have htr : trailingNewlines (append_entry original (format_entry t))
          = 2 := by
        rw [hN, hF]
        have : (joinNl (entryLines t) ++ ['\n']) ++ ['\n'] =
            joinNl (entryLines t) ++ ['\n', '\n'] := by simp
        rw [this, trailingNewlines_append_two hJlast]
      have hline : lineno_after_append original =
          ((([] : List Text).length : Int) + 1) := by
        simp [lineno_after_append, hS]
      unfold insert_then_remove
      rw [hline, remove_entry_core_block hsp hnb, htr, hS]
      rfl
    · have hSlast : (rstripAll original).getLast? ≠ some '\n' :=
        rstripAll_last_ne_nl
      have hAne : splitlines (rstripAll original) ≠ [] := splitlines_ne_nil hS
      have hN0 : append_entry original (format_entry t) =
          rstripAll original ++
            '\n' :: ('\n' :: (format_entry t ++ ['\n'])) := by
        simp [append_entry, hS]
      have hsp : splitlines (append_entry original (format_entry t)) =
          (splitlines (rstripAll original) ++ [[]]) ++
            (entryLines t ++ [[]]) := by
        rw [hN0, splitlines_append, splitlines_append_nl_of_last_ne hS hSlast,
          splitlines_cons_nl, hFsplit]
        simp
      have htr : trailingNewlines (append_entry original (format_entry t))
          = 2 := by
        have hN2 : append_entry original (format_entry t) =
            (rstripAll original ++
              '\n' :: ('\n' :: joinNl (entryLines t))) ++ ['\n', '\n'] := by
          rw [hN0, hF]
          simp
        rw [hN2]
        apply trailingNewlines_append_two
        rw [List.getLast?_append_of_ne_nil _ (by simp),
          getLast?_cons_of_ne_nil '\n' (by simp),
          getLast?_cons_of_ne_nil '\n' hJne]
        exact hJlast
      have hline : lineno_after_append original =
          (((splitlines (rstripAll original) ++ [[]]).length : Int) + 1) := by
        simp only [lineno_after_append, if_neg hS, List.length_append,
          List.length_cons, List.length_nil]
        push_cast
        ring
      unfold insert_then_remove
      rw [hline, remove_entry_core_block hsp hnb, htr,
        joinNl_append_single _ _ hAne,
        joinNl_splitlines_of_last_ne hS hSlast]
      have : rstripAll original ++ '\n' :: ([] : Text) =
          rstripAll original ++ ['\n'] := rfl
      rw [this, rstripNl_append_nl, rstripNl_eq_self hSlast]
      rfl
  refine ⟨main, ?_⟩
  rw [main]
  constructor
  · intro h
    exact (Except.ok.inj h).symm
  · intro h
    exact congrArg Except.ok h.symm

/-- Decidable equality of engine results (not derived for `Except` by
core). -/
instance {α β : Type} [DecidableEq α] [DecidableEq β] :
    DecidableEq (Except α β) := fun a b =>
  match a, b with
  | .ok x, .ok y =>
    match decEq x y with
    | isTrue h => isTrue (by rw [h])
    | isFalse h => isFalse (fun hc => h (Except.ok.inj hc))
  | .error x, .error y =>
    match decEq x y with
    | isTrue h => isTrue (by rw [h])
    | isFalse h => isFalse (fun hc => h (Except.error.inj hc))
  | .ok _, .error _ => isFalse (fun hc => Except.noConfusion hc)
  | .error _, .ok _ => isFalse (fun hc => Except.noConfusion hc)

/-- Concrete rendered transaction for the C2 counterexample. -/
def c2Txn : Transaction :=
  { date := 20200120, payee := some "Book Store", narration := some "Books",
    txn_id := some "abc123",
    postings := [⟨"Expenses:Food", 20, "USD"⟩,
                 ⟨"Assets:Bank:Checking", -20, "USD"⟩] }

/-- Concrete original ledger text, ending with a single newline. -/
def c2Original : Text := "2020-01-01 open Assets:Cash\n".data

/-- Counterexample for C2 as stated: inserting and then removing the
transaction leaves the file with a trailing blank line, so the round trip
is not byte-identical for an original ending in one newline. -/
theorem insert_remove_not_byte_identical_cex :
    insert_then_remove c2Original (format_entry c2Txn) =
      .ok "2020-01-01 open Assets:Cash\n\n".data ∧
    ¬ insert_then_remove c2Original (format_entry c2Txn) = .ok c2Original := by
  refine ⟨?_, ?_⟩ <;> with_unfolding_all decide

/-! Lemmas for dry-run purity: a mutation whose before and after texts have
equal line lists is no mutation at all, so an empty diff means an unchanged
file. -/

theorem splitlines_two_nl_getLast (W : Text) :
    (splitlines (W ++ ['\n', '\n'])).getLast? = some [] := by
  have h0 : W ++ ['\n', '\n'] = W ++ '\n' :: ['\n'] := rfl
  have h1 : splitlines ['\n'] = [[]] := rfl
  rw [h0, splitlines_append, h1,
    List.getLast?_append_of_ne_nil _ (by simp)]
  rfl

theorem append_entry_eq_two_nl (O : Text) (t : Transaction) :
    ∃ W, append_entry O (format_entry t) = W ++ ['\n', '\n'] := by
  have hF := concatNl_eq_joinNl (entryLines_ne_nil t)
  by_cases hS : rstripAll O = []
  · exact ⟨joinNl (entryLines t), by simp [append_entry, format_entry, hS, hF]⟩
  · exact ⟨rstripAll O ++ '\n' :: '\n' :: joinNl (entryLines t),
      by simp [append_entry, format_entry, hS, hF]⟩

theorem append_entry_splitlines_inj (O : Text) (t : Transaction)
    (h : splitlines (append_entry O (format_entry t)) = splitlines O) :
    append_entry O (format_entry t) = O := by
  obtain ⟨W, hW⟩ := append_entry_eq_two_nl O t
  have hNlast : (append_entry O (format_entry t)).getLast? = some '\n' := by
    rw [hW, List.getLast?_append_of_ne_nil _ (by simp)]
    rfl
  have hNsplast : (splitlines (append_entry O (format_entry t))).getLast?
      = some [] := by
    rw [hW]
    exact splitlines_two_nl_getLast W
  by_cases hO : O = []
  · exfalso
    rw [h, hO, splitlines_nil] at hNsplast
    simp at hNsplast
  · by_cases hOlast : O.getLast? = some '\n'
    · exact text_eq_of_splitlines_eq hNlast hOlast h
    · exfalso
      obtain ⟨L, hL, hLne⟩ := splitlines_getLast_ne_empty hO hOlast
      rw [h, hL] at hNsplast
      exact hLne (Option.some_inj.mp hNsplast.symm).symm

theorem block_blanks_pos {suffix : List Text} (h : suffix ≠ []) :
    1 ≤ (suffix.takeWhile (fun l => !(isBlankLine l))).length +
      ((suffix.drop
          (suffix.takeWhile (fun l => !(isBlankLine l))).length).takeWhile
        (fun l => isBlankLine l)).length := by
  cases suffix with
  | nil => exact absurd rfl h
  | cons a as =>
    by_cases hb : isBlankLine a = true
    · simp [List.takeWhile_cons, hb]
    · simp [List.takeWhile_cons, hb]
      omega

/-- Shape of a successful `_remove_entry`: the result is the joined
surviving lines, newline-stripped, plus the preserved trailing newlines;
the surviving lines are strictly fewer than the original lines and all
taken from them. -/
theorem remove_entry_core_ok_shape {O : Text} {L : Int} {R : Text}
    (h : remove_entry_core O (some L) = .ok R) :
    ∃ newLines : List Text,
      R = rstripNl (joinNl newLines) ++
        List.replicate
          (if trailingNewlines O = 0 then 1 else trailingNewlines O) '\n' ∧
      newLines.length < (splitlines O).length ∧
      (∀ l ∈ newLines, l ∈ splitlines O) := by
  simp only [remove_entry_core] at h
  split at h
  · exact absurd h (by simp)
  · rename_i hrange
    refine ⟨(splitlines O).take (L - 1).toNat ++
      (splitlines O).drop ((L - 1).toNat +
        ((((splitlines O).drop (L - 1).toNat).takeWhile
            (fun l => !(isBlankLine l))).length +
          ((((splitlines O).drop (L - 1).toNat).drop
              (((splitlines O).drop (L - 1).toNat).takeWhile
                (fun l => !(isBlankLine l))).length).takeWhile
            (fun l => isBlankLine l)).length)),
      (Except.ok.inj h).symm, ?_, ?_⟩
    · have hidx : (L - 1).toNat < (splitlines O).length := by omega
      have hpos := @block_blanks_pos
        ((splitlines O).drop (L - 1).toNat)
        (by
          intro hnil
          have := congrArg List.length hnil
          simp only [List.length_drop, List.length_nil] at this
          omega)
      simp only [List.length_drop] at hpos
      simp only [List.length_append, List.length_take, List.length_drop]
      omega
    · intro l hl
      rcases List.mem_append.mp hl with h2 | h2
      · exact List.take_subset _ _ h2
      · exact List.drop_subset _ _ h2

theorem remove_entry_core_ends_nl {O R : Text} {l : Option Int}
    (h : remove_entry_core O l = .ok R) :
    R.getLast? = some '\n' ∧ O ≠ [] := by
  simp only [remove_entry_core] at h
  split at h
  · exact absurd h (by simp)
  · rename_i L
    split at h
    · exact absurd h (by simp)
    · rename_i hrange
      constructor
      · rw [← Except.ok.inj h]
        have hpos : 1 ≤ (if trailingNewlines O = 0 then 1
            else trailingNewlines O) := by
          split <;> omega
        rw [List.getLast?_append_of_ne_nil _
          (by
            intro hnil
            have := congrArg List.length hnil
            simp at this
            omega)]
        exact getLast?_replicate_pos _ _ hpos
      · intro hO
        subst hO
        rw [splitlines_nil] at hrange
        simp at hrange
        omega

theorem remove_entry_core_splitlines_inj {O R : Text} {l : Option Int}
    (hok : remove_entry_core O l = .ok R)
    (h : splitlines R = splitlines O) : R = O := by
  obtain ⟨hRlast, hOne⟩ := remove_entry_core_ends_nl hok
  by_cases hOlast : O.getLast? = some '\n'
  · exact text_eq_of_splitlines_eq hRlast hOlast h
  · exfalso
    cases l with
    | none => exact absurd hok (by simp [remove_entry_core])
    | some L =>
      obtain ⟨newLines, hR, hlen, hmem⟩ := remove_entry_core_ok_shape hok
      rw [trailingNewlines_eq_zero hOlast] at hR
      have h10 : (if (0 : Nat) = 0 then (1 : Nat) else 0) = 1 := rfl
      rw [h10, List.replicate_one] at hR
      have hnlfree : ∀ m ∈ newLines, '\n' ∉ m :=
        fun m hm => not_nl_mem_splitlines (hmem m hm)
      have hX : rstripNl (joinNl newLines) =
          joinNl (dropTrailingEmpties newLines) := rstripNl_joinNl hnlfree
      obtain ⟨Lst, hLst, hLstne⟩ := splitlines_getLast_ne_empty hOne hOlast
      by_cases hXnil : rstripNl (joinNl newLines) = []
      · rw [hXnil] at hR
        simp only [List.nil_append] at hR
        rw [hR] at h
        have hsp : splitlines ['\n'] = [[]] := rfl
        rw [hsp] at h
        rw [← h] at hLst
        simp only [List.getLast?_singleton, Option.some_inj] at hLst
        exact hLstne hLst.symm
      · have hXlast : (rstripNl (joinNl newLines)).getLast? ≠ some '\n' :=
          rstripNl_last_ne
        have hRsp : splitlines R = splitlines (rstripNl (joinNl newLines)) := by
          rw [hR]
          exact splitlines_append_nl_of_last_ne hXnil hXlast
        have hMne : dropTrailingEmpties newLines ≠ [] := by
          intro hM
          rw [hX, hM] at hXnil
          exact hXnil rfl
        have hMsp : splitlines (rstripNl (joinNl newLines)) =
            dropTrailingEmpties newLines := by
          rw [hX]
          exact splitlines_joinNl hMne
            (fun m hm => hnlfree m (mem_dropTrailingEmpties hm))
            dropTrailingEmpties_last_ne
        have hlen2 : (splitlines O).length ≤ newLines.length := by
          rw [← h, hRsp, hMsp]
          exact dropTrailingEmpties_length_le newLines
        omega

theorem build_transaction_dry_run_irrel (r : InsertTransactionRequest)
    (d : Option Bool) (i : String) :
    build_transaction { r with dry_run := d } i = build_transaction r i := by
  cases r
  rfl

/-- A dry-run insert leaves the manager state exactly as the load left
it. -/
theorem insert_transaction_dry_state (parse : ParseFn) (errorsOf : ErrorsFn)
    (cfg : AppConfig) (freshId ts : String) (st : ManagerState)
    (request : InsertTransactionRequest) (hd : request.dry_run = some true) :
    (insert_transaction parse errorsOf cfg freshId ts st request).2 =
      (load parse st false).2 := by
  simp only [insert_transaction, hd, Option.getD_some]
  split
  · rfl
  · split
    · rfl
    · split
      · rfl
      · simp

/-- A dry-run removal leaves the manager state exactly as the load left
it. -/
theorem remove_transaction_dry_state (parse : ParseFn) (errorsOf : ErrorsFn)
    (cfg : AppConfig) (ts : String) (st : ManagerState)
    (request : RemoveTransactionRequest) (hd : request.dry_run = some true) :
    (remove_transaction parse errorsOf cfg ts st request).2 =
      (load parse st false).2 := by
  simp only [remove_transaction, hd, Option.getD_some]
  split
  · rfl
  · split
    · rfl
    · split
      · rfl
      · simp

/-- The committed file of a wet mutation is the candidate text it wrote. -/
theorem wet_fileText (parse : ParseFn) (cfg : AppConfig) (ts : String)
    (st1 : ManagerState) (text : Text) :
    (load parse (write_ledger cfg ts st1 text) true).2.fileText = text := by
  rw [(load_preserves parse (write_ledger cfg ts st1 text) true).1]
  rfl

/-- Dry-run and wet insert agree on every outcome: same error, or the same
diff and txn id, the wet run additionally committing; the diff is empty
exactly when the wet run would rewrite the file with its current
content. -/
theorem insert_transaction_dry_wet (parse : ParseFn) (errorsOf : ErrorsFn)
    (cfg : AppConfig) (freshId ts : String) (st : ManagerState)
    (request : InsertTransactionRequest) (hd : request.dry_run = some true)
    (hco : coherent st) :
    (∀ e, (insert_transaction parse errorsOf cfg freshId ts st request).1 =
        .error e ↔
      (insert_transaction parse errorsOf cfg freshId ts st
        { request with dry_run := some false }).1 = .error e) ∧
    (∀ r, (insert_transaction parse errorsOf cfg freshId ts st request).1 =
        .ok r →
      (insert_transaction parse errorsOf cfg freshId ts st
        { request with dry_run := some false }).1 =
          .ok { r with dry_run := false } ∧
      ((insert_transaction parse errorsOf cfg freshId ts st
          { request with dry_run := some false }).2.fileText = st.fileText ↔
        r.diff = [])) := by
  have htext := load_text parse st false hco
  simp only [insert_transaction, hd, Option.getD_some,
    build_transaction_dry_run_irrel]
  split
  · simp
  · split
    · simp
    · rename_i txn hbuild
      split
      · simp
      · rename_i hval
        constructor
        · intro e
          simp
        · intro r hr
          have hr2 := Except.ok.inj hr
          subst hr2
          refine ⟨by simp, ?_⟩
          rw [if_neg (by simp)]
          rw [wet_fileText]
          rw [udiff_eq_nil_iff, htext]
          constructor
          · intro hfile
            rw [hfile]
          · intro hdiff
            exact append_entry_splitlines_inj st.fileText txn hdiff.symm

/-- Dry-run and wet removal agree on every outcome, as for insertion. -/
theorem remove_transaction_dry_wet (parse : ParseFn) (errorsOf : ErrorsFn)
    (cfg : AppConfig) (ts : String) (st : ManagerState)
    (request : RemoveTransactionRequest) (hd : request.dry_run = some true)
    (hco : coherent st) :
    (∀ e, (remove_transaction parse errorsOf cfg ts st request).1 =
        .error e ↔
      (remove_transaction parse errorsOf cfg ts st
        { request with dry_run := some false }).1 = .error e) ∧
    (∀ r, (remove_transaction parse errorsOf cfg ts st request).1 = .ok r →
      (remove_transaction parse errorsOf cfg ts st
        { request with dry_run := some false }).1 =
          .ok { r with dry_run := false } ∧
      ((remove_transaction parse errorsOf cfg ts st
          { request with dry_run := some false }).2.fileText = st.fileText ↔
        r.diff = [])) := by
  have htext := load_text parse st false hco
  simp only [remove_transaction, hd, Option.getD_some]
  split
  · simp
  · rename_i txn hget
    split
    · simp
    · rename_i newText hrem
      split
      · simp
      · rename_i hval
        constructor
        · intro e
          simp
        · intro r hr
          have hr2 := Except.ok.inj hr
          subst hr2
          refine ⟨by simp, ?_⟩
          rw [if_neg (by simp)]
          rw [wet_fileText]
          rw [udiff_eq_nil_iff, htext]
          rw [htext] at hrem
          constructor
          · intro hfile
            rw [hfile]
          · intro hdiff
            exact remove_entry_core_splitlines_inj hrem hdiff.symm

/-- Claim C3: a dry-run insert or removal leaves the on-disk ledger and the
backup directory byte-identical, while still executing the build, render
and verify phases in full — it errors exactly when the corresponding
non-dry-run call errors, and on success returns the same txn id and the
same diff that the non-dry-run call would produce; that diff is empty
precisely when the non-dry-run call would leave the file content
unchanged, so it is non-empty whenever a real change would occur. -/
theorem dry_run_purity (parse : ParseFn) (errorsOf : ErrorsFn)
    (cfg : AppConfig) (freshId timestamp : String) (st : ManagerState)
    (reqI : InsertTransactionRequest) (reqR : RemoveTransactionRequest)
    (hco : coherent st)
    (hdI : reqI.dry_run = some true) (hdR : reqR.dry_run = some true) :
    (insert_transaction parse errorsOf cfg freshId timestamp st
      reqI).2.fileText = st.fileText ∧
    (insert_transaction parse errorsOf cfg freshId timestamp st
      reqI).2.backups = st.backups ∧
    (remove_transaction parse errorsOf cfg timestamp st
      reqR).2.fileText = st.fileText ∧
    (remove_transaction parse errorsOf cfg timestamp st
      reqR).2.backups = st.backups ∧
    (∀ e, (insert_transaction parse errorsOf cfg freshId timestamp st
        reqI).1 = .error e ↔
      (insert_transaction parse errorsOf cfg freshId timestamp st
        { reqI with dry_run := some false }).1 = .error e) ∧
    (∀ r, (insert_transaction parse errorsOf cfg freshId timestamp st
        reqI).1 = .ok r →
      (insert_transaction parse errorsOf cfg freshId timestamp st
        { reqI with dry_run := some false }).1 =
          .ok { r with dry_run := false } ∧
      ((insert_transaction parse errorsOf cfg freshId timestamp st
          { reqI with dry_run := some false }).2.fileText = st.fileText ↔
        r.diff = [])) ∧
    (∀ e, (remove_transaction parse errorsOf cfg timestamp st reqR).1 =
        .error e ↔
      (remove_transaction parse errorsOf cfg timestamp st
        { reqR with dry_run := some false }).1 = .error e) ∧
    (∀ r, (remove_transaction parse errorsOf cfg timestamp st reqR).1 =
        .ok r →
      (remove_transaction parse errorsOf cfg timestamp st
        { reqR with dry_run := some false }).1 =
          .ok { r with dry_run := false } ∧
      ((remove_transaction parse errorsOf cfg timestamp st
          { reqR with dry_run := some false }).2.fileText = st.fileText ↔
        r.diff = [])) := by
  have hpre := load_preserves parse st false
  obtain ⟨hIwet1, hIwet2⟩ := insert_transaction_dry_wet parse errorsOf cfg
    freshId timestamp st reqI hdI hco
  obtain ⟨hRwet1, hRwet2⟩ := remove_transaction_dry_wet parse errorsOf cfg
    timestamp st reqR hdR hco
  refine ⟨?_, ?_, ?_, ?_, hIwet1, hIwet2, hRwet1, hRwet2⟩
  · rw [insert_transaction_dry_state parse errorsOf cfg freshId timestamp st
      reqI hdI]
    exact hpre.1
  · rw [insert_transaction_dry_state parse errorsOf cfg freshId timestamp st
      reqI hdI]
    exact hpre.2.2
  · rw [remove_transaction_dry_state parse errorsOf cfg timestamp st
      reqR hdR]
    exact hpre.1
  · rw [remove_transaction_dry_state parse errorsOf cfg timestamp st
      reqR hdR]
    exact hpre.2.2

/-- Witness for C3 at a concrete coherent state and dry-run requests. -/
theorem dry_run_purity_witness :
    (insert_transaction (fun _ => []) (fun _ => [])
        { ledgerName := "example.beancount" } "f" "t" c7State
        { date := 1, postings := [], dry_run := some true }).2.fileText =
      c7State.fileText :=
  (dry_run_purity (fun _ => []) (fun _ => [])
    { ledgerName := "example.beancount" } "f" "t" c7State
    { date := 1, postings := [], dry_run := some true }
    { txn_id := "x", dry_run := some true }
    (fun snap hsnap => by injection hsnap with h; rw [← h]; rfl) rfl rfl).1

/-- Witness for the amended C2 at a concrete original and transaction. -/
theorem insert_remove_round_trip_witness :
    goodLines (entryLines c2Txn) = true ∧
    insert_then_remove c2Original (format_entry c2Txn) =
      .ok (rstripAll c2Original ++ ['\n', '\n']) :=
  ⟨by with_unfolding_all decide,
   (insert_remove_round_trip c2Original c2Txn (by with_unfolding_all decide)).1⟩

end McpBeancount
